import Mathlib

/-!
Shallow embedding of `torch/csrc/jit/passes/specialize_autogradzero.cpp`
(function `specializeAutogradZero`), the pass that propagates autograd-zero
information through a gradient graph and removes `grad_of` (`prim::If` over
`prim::AutogradAnyNonZero`) blocks.

Values are identified by natural numbers.  A graph is a list of graph-input
value ids, a list of nodes in program order, a list of graph-output value
ids, and a type annotation table for values.  Node kinds are the operation
tags the pass dispatches on; every kind the `switch` does not name is
collapsed into the bucket kinds that reach the `default:` label
(`constant`, `atenAdd`, `anyNonZero`, `other`).
-/

namespace AutogradZero

/-- `enum class State { Nonzero, Zero, Unknown }` from the source.
The declaration order matters: `std::unordered_map::operator[]` on a missing
key value-initializes the mapped value, and a value-initialized scoped enum
is its zero value, i.e. the FIRST enumerator `Nonzero`. -/
inductive State where
  | Nonzero
  | Zero
  | Unknown
deriving DecidableEq, Repr

/-- The type annotation of a value, restricted to the distinctions the pass
queries:
* `tensor u` — the annotation is a `TensorType` (so `tp->cast<TensorType>()`
  succeeds); `u` is `tt->undefined()`: `some true` = known structurally
  absent, `some false` = known present, `none` = flag unknown;
* `tensorSub` — not a `TensorType`, but `tp->isSubtypeOf(TensorType::get())`
  holds;
* `tensorList` — `tp->isSubtypeOf(ListType::ofTensors())` holds (a
  homogeneous list of tensors);
* `other` — any other (non-tensor-like) type. -/
inductive JType where
  | tensor (u : Option Bool)
  | tensorSub
  | tensorList
  | other
deriving DecidableEq, Repr

/-- The operation kinds the `switch` statement distinguishes, plus the kinds
that occur in this pass's graphs but fall to the `default:` label. -/
inductive NodeKind where
  | autogradAdd   -- prim::AutogradAdd
  | autogradZero  -- prim::AutogradZero
  | profile       -- prim::profile
  | bailOut       -- prim::BailOut
  | guardKind     -- prim::Guard
  | ifKind        -- prim::If
  | anyNonZero    -- prim::AutogradAnyNonZero (reaches default:)
  | atenAdd       -- aten::add (reaches default:)
  | constant (v : Int)  -- prim::Constant with its value attribute (reaches default:)
  | other         -- every other kind (default:)
deriving DecidableEq, Repr

/-- A node: kind, ordered input value ids, ordered output value ids, and
nested blocks.  Each block is a pair of its body nodes (in program order)
and its ordered block-output value ids.  For a `prim::If` node the first
block is the true branch. -/
inductive Node where
  | mk (kind : NodeKind) (ins : List Nat) (outs : List Nat)
       (blocks : List (List Node × List Nat)) : Node

def Node.kind : Node → NodeKind
  | .mk k _ _ _ => k

def Node.ins : Node → List Nat
  | .mk _ i _ _ => i

def Node.outs : Node → List Nat
  | .mk _ _ o _ => o

def Node.blocks : Node → List (List Node × List Nat)
  | .mk _ _ _ b => b

/-- Value substitution: `if v = f then t else v`. -/
def substV (f t v : Nat) : Nat :=
  if v = f then t else v

/-- `replaceAllUsesWith`: replace every USE of value `f` by value `t` in a
node — its inputs, and recursively the inputs and block outputs of the
nodes of its nested blocks.  The node's own output list is its list of
definitions, not uses, so it is untouched. -/
def Node.subst (f t : Nat) : Node → Node
  | .mk k i o bs =>
    .mk k (i.map (substV f t)) o
      (bs.attach.map fun b =>
        (b.1.1.attach.map (fun nd => Node.subst f t nd.1),
         b.1.2.map (substV f t)))
termination_by n => sizeOf n
decreasing_by
  rename_i i0 o0 bs0
  have h1 : sizeOf b.1 < sizeOf bs0 := List.sizeOf_lt_of_mem b.2
  have h2 : sizeOf nd.1 < sizeOf b.1.1 := List.sizeOf_lt_of_mem nd.2
  have h3 : sizeOf b.1.1 ≤ sizeOf b.1 := by
    obtain ⟨⟨bn, bo⟩, hb⟩ := b
    simp
    omega
  simp only [Node.mk.sizeOf_spec]
  omega

/-- Unfolding equation for `Node.subst` without `attach`. -/
@[simp]
theorem Node.subst_mk (f t : Nat) (k : NodeKind) (i o : List Nat)
    (bs : List (List Node × List Nat)) :
    Node.subst f t (.mk k i o bs) =
      .mk k (i.map (substV f t)) o
        (bs.map fun b => (b.1.map (Node.subst f t), b.2.map (substV f t))) := by
  rw [Node.subst]
  simp only [List.attach_map_coe]
  rw [List.attach_map_coe bs
    (fun b => (List.map (Node.subst f t) b.1, List.map (substV f t) b.2))]

/-- The classification mapping `std::unordered_map<Value*, State> state`.
Assignment prepends; lookup takes the first (most recent) entry. -/
abbrev StateMap := List (Nat × State)

/-- `state[v]` read on a map: `operator[]` on a missing key default-inserts a
value-initialized `State`, which for the scoped enum is its first enumerator
`State::Nonzero`.  (The insertion itself changes no subsequent lookup, since
the inserted value is exactly the default, so we model the read alone.) -/
def lookupState (m : StateMap) (v : Nat) : State :=
  match m.find? (fun p => p.1 = v) with
  | some p => p.2
  | none => State.Nonzero

/-- `state[v] = s` assignment. -/
def setState (m : StateMap) (v : Nat) (s : State) : StateMap :=
  (v, s) :: m

/-- `for (auto o : n->outputs()) state[o] = s`. -/
def setAll (m : StateMap) (vs : List Nat) (s : State) : StateMap :=
  vs.foldl (fun m v => setState m v s) m

/-- Type annotations of values (`Value::type()`). -/
abbrev TypeMap := List (Nat × JType)

/-- Look up a value's type annotation; every torch `Value` carries a type,
and `other` stands for any type the pass draws no information from, so it
doubles as the default for ids missing from the table. -/
def lookupType (vt : TypeMap) (v : Nat) : JType :=
  match vt.find? (fun p => p.1 = v) with
  | some p => p.2
  | none => JType.other

def substNodes (f t : Nat) (ns : List Node) : List Node :=
  ns.map (Node.subst f t)

def substVals (f t : Nat) (vs : List Nat) : List Nat :=
  vs.map (substV f t)

/-- `for (auto o : outs) o->replaceAllUsesWith(z)`: sequential replacement
of each source value by the one fixed target. -/
def multiSubstNodes (fs : List Nat) (t : Nat) (ns : List Node) : List Node :=
  fs.foldl (fun ns f => substNodes f t ns) ns

def multiSubstVals (fs : List Nat) (t : Nat) (vs : List Nat) : List Nat :=
  fs.foldl (fun vs f => substVals f t vs) vs

/-- A graph: input value ids, body nodes in program order, graph-output
value ids (the uses held by the return node), the type table, and a counter
for allocating fresh value ids when the pass creates nodes. -/
structure Graph where
  inputs : List Nat
  nodes : List Node
  outputs : List Nat
  vtypes : TypeMap
  fresh : Nat

/-- `value->node()`: the node defining value `v`, looked up in the node
list (graph inputs and unproduced ids have no entry, standing for the
parameter node, whose kind is none of the dispatched ones). -/
def findDef (ns : List Node) (v : Nat) : Option Node :=
  ns.find? (fun n => n.outs.contains v)

/-- The Initializer's classification of one graph input from its type
annotation, mirroring the branch chain over `input->type()`:
`cast<TensorType>` with `undefined()` known gives `Zero`/`Nonzero`, with
`undefined()` unknown gives `Unknown`; otherwise
`isSubtypeOf(TensorType::get()) || isSubtypeOf(ListType::ofTensors())`
gives `Nonzero`; anything else gives `Unknown`. -/
def initClassify (tp : JType) : State :=
  match tp with
  | .tensor (some true) => State.Zero
  | .tensor (some false) => State.Nonzero
  | .tensor none => State.Unknown
  | .tensorSub => State.Nonzero
  | .tensorList => State.Nonzero
  | .other => State.Unknown

/-- The Initializer: classify every graph input.  It only populates the
state map; the graph is not touched (the function has no graph output). -/
def initStates (g : Graph) : StateMap :=
  g.inputs.foldl (fun m v => setState m v (initClassify (lookupType g.vtypes v))) []

/-- Result of the traversal: the processed node list, the rewritten
graph-output list, the extended type table, the fresh counter, and the
final classification map. -/
structure PassResult where
  nodes : List Node
  outputs : List Nat
  vtypes : TypeMap
  fresh : Nat
  state : StateMap

/-- The per-output loop of the all-nonzero `prim::If` inlining:
`for i: n->outputs().at(i)->replaceAllUsesWith(body->outputs().at(i));
state[body->outputs().at(i)] = Nonzero`.  Each replacement is global, so it
also rewrites the remaining block-output uses `ws`.  The caller has already
checked `os.length ≤ ws.length` (otherwise `.at(i)` would throw). -/
def inlineOuts (os ws : List Nat) (st : StateMap) (acc rest : List Node)
    (gouts : List Nat) : StateMap × List Node × List Node × List Nat :=
  match os, ws with
  | [], _ => (st, acc, rest, gouts)
  | _ :: _, [] => (st, acc, rest, gouts)
  | o :: os, w :: ws =>
      inlineOuts os (ws.map (substV o w)) (setState st w State.Nonzero)
        (substNodes o w acc) (substNodes o w rest) (substVals o w gouts)

theorem inlineOuts_rest_length (os ws : List Nat) (st : StateMap)
    (acc rest : List Node) (gouts : List Nat) :
    ((inlineOuts os ws st acc rest gouts).2.2.1).length = rest.length := by
  induction os generalizing ws st acc rest gouts with
  | nil => simp [inlineOuts]
  | cons o os ih =>
    cases ws with
    | nil => simp [inlineOuts]
    | cons w ws => simp [inlineOuts, ih, substNodes]

theorem multiSubstNodes_length (fs : List Nat) (t : Nat) (ns : List Node) :
    (multiSubstNodes fs t ns).length = ns.length := by
  induction fs generalizing ns with
  | nil => rfl
  | cons f fs ih =>
    have h : multiSubstNodes (f :: fs) t ns = multiSubstNodes fs t (substNodes f t ns) := rfl
    rw [h, ih, substNodes, List.length_map]

/-- The `Zero`/`Nonzero`/`Unknown` classification drawn from a tensor
type's optional structurally-absent flag (`ptt->undefined()`), as used by
the `prim::BailOut` and `prim::Guard` cases. -/
def tstate : Option Bool → State
  | some true => State.Zero
  | some false => State.Nonzero
  | none => State.Unknown

/-- One forward traversal of the node list: the `for (auto it = g.nodes().begin(); ...)`
loop with its `switch (n->kind())`.  `acc` holds the nodes already passed
(including nodes the pass inserted before the cursor, which the iterator
never revisits), `gouts` the current graph-output uses, `fresh` the next
unused value id.  `none` models a thrown `c10::Error` from an out-of-bounds
`input(i)`/`output()`/`blocks().at(0)`/`outputs().at(i)` access or a failed
`expect<TensorType>`. -/
def go (st : StateMap) (vt : TypeMap) (fresh : Nat) (acc : List Node)
    (gouts : List Nat) : List Node → Option PassResult
  | [] => some ⟨acc, gouts, vt, fresh, st⟩
  | n :: rest =>
    match n.kind with
    | .autogradAdd =>
      match n.ins, n.outs with
      | a :: b :: _, [o] =>
        if lookupState st a = State.Zero then
          -- Zero + b == b: replace all uses of the output with b, destroy n
          go st vt fresh (substNodes o b acc) (substVals o b gouts)
            (substNodes o b rest)
        else if lookupState st b = State.Zero then
          -- a + Zero == a
          go st vt fresh (substNodes o a acc) (substVals o a gouts)
            (substNodes o a rest)
        else if lookupState st a = State.Nonzero ∧ lookupState st b = State.Nonzero then
          -- WithInsertPoint guard(n): insertConstant(1), then an aten::add
          -- node with inputs a, b, cOne, all inserted immediately before n;
          -- the new output takes n's output type and is classified Nonzero;
          -- then all uses of n's output are replaced and n is destroyed.
          let c1 := fresh
          let ao := fresh + 1
          let constNode := Node.mk (.constant 1) [] [c1] []
          let addNode := Node.mk .atenAdd [a, b, c1] [ao] []
          go (setState st ao State.Nonzero)
            ((ao, lookupType vt o) :: (c1, JType.other) :: vt) (fresh + 2)
            (substNodes o ao (acc ++ [constNode, addNode]))
            (substVals o ao gouts) (substNodes o ao rest)
        else
          -- conditionally-Nonzero: leave the op as is
          go (setState st o State.Unknown) vt fresh (acc ++ [n]) gouts rest
      | _, _ => none
    | .autogradZero =>
      match n.outs with
      | [o] => go (setState st o State.Zero) vt fresh (acc ++ [n]) gouts rest
      | _ => none
    | .profile =>
      if n.ins.length > 0 then
        match n.outs with
        | [o] => go (setState st o State.Unknown) vt fresh (acc ++ [n]) gouts rest
        | _ => none
      else
        go st vt fresh (acc ++ [n]) gouts rest
    | .bailOut =>
      match n.outs with
      | [o] =>
        match lookupType vt o with
        | .tensor u =>
          go (setState st o (tstate u)) vt fresh (acc ++ [n]) gouts rest
        | _ => none
      | _ => none
    | .guardKind =>
      match n.outs with
      | [o] =>
        match lookupType vt o with
        | .tensor u =>
          go (setState st o (tstate u)) vt fresh (acc ++ [n]) gouts rest
        | _ => none
      | _ => none
    | .ifKind =>
      match n.ins with
      | [] => none
      | cond :: _ =>
        match findDef (acc ++ n :: rest) cond with
        | some dn =>
          if dn.kind = NodeKind.anyNonZero then
            if ∀ v ∈ dn.ins, lookupState st v = State.Zero then
              -- all_zeros: createAutogradZero()->insertAfter(n); classify its
              -- output Zero; replace every If output with it; destroy n.  The
              -- iterator then lands on the inserted AutogradZero node, whose
              -- case re-assigns state[z] = Zero (no lookup changes), so that
              -- visit is folded into this step and the node goes to acc.
              let z := fresh
              let zNode := Node.mk .autogradZero [] [z] []
              go (setState st z State.Zero) ((z, JType.tensor none) :: vt)
                (fresh + 1) (multiSubstNodes n.outs z (acc ++ [zNode]))
                (multiSubstVals n.outs z gouts) (multiSubstNodes n.outs z rest)
            else if ∀ v ∈ dn.ins, lookupState st v = State.Nonzero then
              -- all_nonzeros: hoist the first block's body before n in order
              -- (the iterator is already past that position, so the hoisted
              -- nodes are not dispatched), then replace each If output with
              -- the positional block output, classify it Nonzero, destroy n.
              match n.blocks with
              | [] => none
              | (body, bouts) :: _ =>
                if n.outs.length ≤ bouts.length then
                  let r := inlineOuts n.outs bouts st (acc ++ body) rest gouts
                  go r.1 vt fresh r.2.1 r.2.2.2 r.2.2.1
                else none
            else
              go (setAll st n.outs State.Unknown) vt fresh (acc ++ [n]) gouts rest
          else
            go (setAll st n.outs State.Unknown) vt fresh (acc ++ [n]) gouts rest
        | none =>
          go (setAll st n.outs State.Unknown) vt fresh (acc ++ [n]) gouts rest
    | _ =>
      -- default: conservatively mark every output Unknown, no mutation
      go (setAll st n.outs State.Unknown) vt fresh (acc ++ [n]) gouts rest
termination_by l => l.length
decreasing_by
  all_goals simp_all [substNodes, inlineOuts_rest_length, multiSubstNodes_length]

/-- `void specializeAutogradZero(Graph& g)`: initialize the classification
of the graph inputs, then traverse the body. -/
def specializeAutogradZero (g : Graph) : Option Graph :=
  match go (initStates g) g.vtypes g.fresh [] g.outputs g.nodes with
  | some r => some ⟨g.inputs, r.nodes, r.outputs, r.vtypes, r.fresh⟩
  | none => none

/-! ### Basic lemmas about the maps -/

theorem lookupState_setState (m : StateMap) (w v : Nat) (s : State) :
    lookupState (setState m w s) v = if v = w then s else lookupState m v := by
  simp only [lookupState, setState, List.find?]
  by_cases h : w = v
  · subst h; simp
  · have h' : ¬v = w := fun hv => h hv.symm
    simp [h, h']

theorem lookup_initStates_aux (ins : List Nat) (vt : TypeMap) (m : StateMap) (v : Nat) :
    lookupState (ins.foldl (fun m w => setState m w (initClassify (lookupType vt w))) m) v
      = if v ∈ ins then initClassify (lookupType vt v) else lookupState m v := by
  induction ins generalizing m with
  | nil => simp
  | cons i rest ih =>
    simp only [List.foldl_cons, ih, lookupState_setState, List.mem_cons]
    by_cases hr : v ∈ rest
    · simp [hr]
    · by_cases hi : v = i
      · subst hi; simp [hr]
      · simp [hr, hi]

/-! ### C1: classification of values missing from the mapping -/

/-- C1 counterexample.  The claim says a value with no entry in the
classification mapping is looked up as `Unknown` and its node is handled by
the conservative branch.  In the source the mapping is read with
`std::unordered_map::operator[]`, which default-inserts a value-initialized
`State`; for the scoped enum `State { Nonzero, Zero, Unknown }` that is the
first enumerator `Nonzero`.  Concretely: the empty map looks up value `0`
as `Nonzero`, not `Unknown`, and on a graph whose zero-guarded-add has two
operands with no entries the pass takes the both-`Nonzero` rewrite (it
downgrades the add to an ordinary `aten::add`), not the conservative
branch. -/
theorem C1_counterexample :
    lookupState [] 0 ≠ State.Unknown ∧
    lookupState [] 0 = State.Nonzero ∧
    specializeAutogradZero
      { inputs := [], nodes := [Node.mk .autogradAdd [0, 1] [2] []],
        outputs := [2], vtypes := [], fresh := 3 } =
      some { inputs := [],
             nodes := [Node.mk (.constant 1) [] [3] [], Node.mk .atenAdd [0, 1, 3] [4] []],
             outputs := [4],
             vtypes := [(4, JType.other), (3, JType.other)],
             fresh := 5 } := by
  refine ⟨by simp [lookupState], by simp [lookupState], ?_⟩
  simp [specializeAutogradZero, go, initStates, lookupState, lookupType,
    substNodes, substVals, substV, Node.kind, Node.ins, Node.outs, setState]

/-- C1, amended: a value that has no entry in the classification mapping at
the moment it is read is looked up as `Nonzero` (the value-initialized
first enumerator inserted by `operator[]`), not `Unknown`, so such an
operand is treated exactly like an explicitly `Nonzero` one. -/
theorem C1_missing_is_nonzero (m : StateMap) (v : Nat)
    (h : m.find? (fun p => decide (p.1 = v)) = none) :
    lookupState m v = State.Nonzero := by
  simp [lookupState, h]

/-- C1 witness: the amended theorem applied to the empty map at value 0. -/
theorem C1_missing_is_nonzero_witness :
    List.find? (fun p => decide (p.1 = 0)) ([] : StateMap) = none ∧
    lookupState [] 0 = State.Nonzero :=
  ⟨rfl, C1_missing_is_nonzero [] 0 rfl⟩

/-! ### C2: the Initializer's classification of graph inputs -/

/-- C2 counterexample.  The claim says a tensor-like type with the
structurally-absent flag unknown is classified `Nonzero`.  In the source a
type for which `cast<TensorType>()` succeeds but `tt->undefined()` is
`nullopt` falls into the inner `else` and is classified `Unknown`:
concretely, a graph whose single input is annotated `tensor none` has that
input initialized to `Unknown`, not `Nonzero`. -/
theorem C2_counterexample :
    initClassify (JType.tensor none) = State.Unknown ∧
    initClassify (JType.tensor none) ≠ State.Nonzero ∧
    lookupState (initStates { inputs := [0]
                              nodes := []
                              outputs := [0]
                              vtypes := [(0, JType.tensor none)]
                              fresh := 1 }) 0 = State.Unknown := by
  refine ⟨rfl, by decide, ?_⟩
  simp [initStates, lookupState, setState, lookupType, initClassify]

/-- C2, amended: the Initializer classifies every graph input from its type
annotation as follows — a flag-capable tensor type (`cast<TensorType>`
succeeds) with the structurally-absent flag known true is `Zero`, known
false is `Nonzero`, and with the flag unknown is `Unknown` (not `Nonzero`);
a tensor-like subtype that is not itself a flag-capable tensor type, or a
homogeneous list of tensor-like values, is `Nonzero`; any non-tensor type
is `Unknown`.  The Initializer only populates the classification mapping
(`initStates` returns a `StateMap` and nothing else), so it never mutates
the graph. -/
theorem C2_initializer :
    (∀ (g : Graph) (v : Nat), v ∈ g.inputs →
        lookupState (initStates g) v = initClassify (lookupType g.vtypes v)) ∧
    initClassify (JType.tensor (some true)) = State.Zero ∧
    initClassify (JType.tensor (some false)) = State.Nonzero ∧
    initClassify (JType.tensor none) = State.Unknown ∧
    initClassify JType.tensorSub = State.Nonzero ∧
    initClassify JType.tensorList = State.Nonzero ∧
    initClassify JType.other = State.Unknown := by
  refine ⟨fun g v hv => ?_, rfl, rfl, rfl, rfl, rfl, rfl⟩
  simp [initStates, lookup_initStates_aux, hv]

/-- C2 witness: the amended theorem applied to a concrete graph with one
input of each interesting annotation. -/
theorem C2_initializer_witness :
    lookupState (initStates { inputs := [0, 1, 2]
                              nodes := []
                              outputs := []
                              vtypes := [(0, JType.tensor (some true)),
                                         (1, JType.tensor none), (2, JType.tensorList)]
                              fresh := 3 }) 0 =
      initClassify (lookupType [(0, JType.tensor (some true)),
        (1, JType.tensor none), (2, JType.tensorList)] 0) :=
  C2_initializer.1
    { inputs := [0, 1, 2]
      nodes := []
      outputs := []
      vtypes := [(0, JType.tensor (some true)), (1, JType.tensor none),
                 (2, JType.tensorList)]
      fresh := 3 } 0 (by decide)

/-! ### C3, C4, C5: the zero-guarded-add (`prim::AutogradAdd`) rewrites -/

/-- C3: when the traversal reaches a zero-guarded-add whose first operand
`a` is classified `Zero`, every use of the node's output `o` (in the nodes
already passed, the nodes still to come, and the graph outputs) is replaced
by the second operand `b`, the node itself is dropped, and the traversal
continues — so the guarded-add node no longer exists in the graph;
symmetrically, when `a` is not `Zero` and `b` is classified `Zero`, the
uses are replaced by `a` and the node is dropped. -/
theorem C3_add_with_zero (st : StateMap) (vt : TypeMap) (fresh : Nat)
    (acc : List Node) (gouts : List Nat) (a b o : Nat) (extra : List Nat)
    (bks : List (List Node × List Nat)) (rest : List Node) :
    (lookupState st a = State.Zero →
      go st vt fresh acc gouts (Node.mk .autogradAdd (a :: b :: extra) [o] bks :: rest) =
        go st vt fresh (substNodes o b acc) (substVals o b gouts) (substNodes o b rest))
    ∧ (lookupState st a ≠ State.Zero → lookupState st b = State.Zero →
      go st vt fresh acc gouts (Node.mk .autogradAdd (a :: b :: extra) [o] bks :: rest) =
        go st vt fresh (substNodes o a acc) (substVals o a gouts) (substNodes o a rest)) := by
  constructor
  · intro h
    rw [go]
    simp [Node.kind, Node.ins, Node.outs, h]
  · intro h1 h2
    rw [go]
    simp [Node.kind, Node.ins, Node.outs, h1, h2]

/-- C3 witness: both parts applied at concrete configurations. -/
theorem C3_add_with_zero_witness :
    (lookupState [(0, State.Zero)] 0 = State.Zero ∧
      go [(0, State.Zero)] [] 10 [] [2] [Node.mk .autogradAdd [0, 1] [2] []] =
        go [(0, State.Zero)] [] 10 (substNodes 2 1 []) (substVals 2 1 [2]) (substNodes 2 1 [])) ∧
    (lookupState [(1, State.Zero)] 0 ≠ State.Zero ∧
      lookupState [(1, State.Zero)] 1 = State.Zero ∧
      go [(1, State.Zero)] [] 10 [] [2] [Node.mk .autogradAdd [0, 1] [2] []] =
        go [(1, State.Zero)] [] 10 (substNodes 2 0 []) (substVals 2 0 [2]) (substNodes 2 0 [])) :=
  ⟨⟨by decide,
    (C3_add_with_zero [(0, State.Zero)] [] 10 [] [2] 0 1 2 [] [] []).1 (by decide)⟩,
   ⟨by decide, by decide,
    (C3_add_with_zero [(1, State.Zero)] [] 10 [] [2] 0 1 2 [] [] []).2
      (by decide) (by decide)⟩⟩

/-- C4: when the traversal reaches a zero-guarded-add whose operands are
both classified `Nonzero`, the pass inserts, immediately before the current
node, a `prim::Constant` producing the unit scale and an ordinary
`aten::add` node whose inputs are exactly `a`, `b` and the unit constant;
the new output takes the original output's type annotation (in the type
table) and is classified `Nonzero`; every use of the original output is
replaced by the new output; and the original guarded-add node is dropped,
so it no longer exists in the graph. -/
theorem C4_add_both_nonzero (st : StateMap) (vt : TypeMap) (fresh : Nat)
    (acc : List Node) (gouts : List Nat) (a b o : Nat) (extra : List Nat)
    (bks : List (List Node × List Nat)) (rest : List Node)
    (ha : lookupState st a = State.Nonzero) (hb : lookupState st b = State.Nonzero) :
    go st vt fresh acc gouts (Node.mk .autogradAdd (a :: b :: extra) [o] bks :: rest) =
      go (setState st (fresh + 1) State.Nonzero)
        ((fresh + 1, lookupType vt o) :: (fresh, JType.other) :: vt) (fresh + 2)
        (substNodes o (fresh + 1)
          (acc ++ [Node.mk (.constant 1) [] [fresh] [],
                   Node.mk .atenAdd [a, b, fresh] [fresh + 1] []]))
        (substVals o (fresh + 1) gouts) (substNodes o (fresh + 1) rest) := by
  rw [go]
  simp [Node.kind, Node.ins, Node.outs, ha, hb]

/-- C4 witness: applied at a concrete configuration. -/
theorem C4_add_both_nonzero_witness :
    lookupState [(0, State.Nonzero), (1, State.Nonzero)] 0 = State.Nonzero ∧
    lookupState [(0, State.Nonzero), (1, State.Nonzero)] 1 = State.Nonzero ∧
    go [(0, State.Nonzero), (1, State.Nonzero)] [(2, JType.tensor (some false))] 10
        [] [2] [Node.mk .autogradAdd [0, 1] [2] []] =
      go (setState [(0, State.Nonzero), (1, State.Nonzero)] 11 State.Nonzero)
        ((11, lookupType [(2, JType.tensor (some false))] 2) ::
          (10, JType.other) :: [(2, JType.tensor (some false))]) 12
        (substNodes 2 11
          ([] ++ [Node.mk (.constant 1) [] [10] [], Node.mk .atenAdd [0, 1, 10] [11] []]))
        (substVals 2 11 [2]) (substNodes 2 11 []) :=
  ⟨by decide, by decide,
   C4_add_both_nonzero [(0, State.Nonzero), (1, State.Nonzero)]
     [(2, JType.tensor (some false))] 10 [] [2] 0 1 2 [] [] []
     (by decide) (by decide)⟩

/-- C5: when the traversal reaches a zero-guarded-add whose operand
classifications are neither both-`Nonzero` nor either-`Zero`, the node is
kept exactly as it is, nothing else in the graph changes, the output is
classified `Unknown`, and the traversal continues. -/
theorem C5_add_mixed (st : StateMap) (vt : TypeMap) (fresh : Nat)
    (acc : List Node) (gouts : List Nat) (a b o : Nat) (extra : List Nat)
    (bks : List (List Node × List Nat)) (rest : List Node)
    (ha : lookupState st a ≠ State.Zero) (hb : lookupState st b ≠ State.Zero)
    (hmix : ¬(lookupState st a = State.Nonzero ∧ lookupState st b = State.Nonzero)) :
    go st vt fresh acc gouts (Node.mk .autogradAdd (a :: b :: extra) [o] bks :: rest) =
      go (setState st o State.Unknown) vt fresh
        (acc ++ [Node.mk .autogradAdd (a :: b :: extra) [o] bks]) gouts rest := by
  rw [go]
  simp [Node.kind, Node.ins, Node.outs, ha, hb, hmix]

/-- C5 witness: applied at a concrete configuration (`a` is `Unknown`). -/
theorem C5_add_mixed_witness :
    lookupState [(0, State.Unknown), (1, State.Nonzero)] 0 ≠ State.Zero ∧
    lookupState [(0, State.Unknown), (1, State.Nonzero)] 1 ≠ State.Zero ∧
    ¬(lookupState [(0, State.Unknown), (1, State.Nonzero)] 0 = State.Nonzero ∧
      lookupState [(0, State.Unknown), (1, State.Nonzero)] 1 = State.Nonzero) ∧
    go [(0, State.Unknown), (1, State.Nonzero)] [] 10 [] [2]
        [Node.mk .autogradAdd [0, 1] [2] []] =
      go (setState [(0, State.Unknown), (1, State.Nonzero)] 2 State.Unknown) [] 10
        ([] ++ [Node.mk .autogradAdd [0, 1] [2] []]) [2] [] :=
  ⟨by decide, by decide, by decide,
   C5_add_mixed [(0, State.Unknown), (1, State.Nonzero)] [] 10 [] [2] 0 1 2 [] [] []
     (by decide) (by decide) (by decide)⟩

/-! ### C6, C7, C10: conditional-block (`prim::If`) specialization -/

theorem map_substV_id (o w : Nat) (l : List Nat) (h : ∀ x ∈ l, x ≠ o) :
    l.map (substV o w) = l := by
  induction l with
  | nil => rfl
  | cons x xs ih =>
    have hx : x ≠ o := h x (by simp)
    rw [List.map_cons, ih (fun y hy => h y (by simp [hy]))]
    simp [substV, hx]

/-- Entries added by `inlineOuts` are all `Nonzero`, so a value already
looked up as `Nonzero` stays `Nonzero`. -/
theorem inlineOuts_state_mono (os ws : List Nat) (st : StateMap)
    (acc rest : List Node) (gouts : List Nat) (w : Nat)
    (h : lookupState st w = State.Nonzero) :
    lookupState (inlineOuts os ws st acc rest gouts).1 w = State.Nonzero := by
  induction os generalizing ws st acc rest gouts with
  | nil => simpa [inlineOuts] using h
  | cons o os ih =>
    cases ws with
    | nil => simpa [inlineOuts] using h
    | cons w' ws =>
      rw [inlineOuts]
      apply ih
      rw [lookupState_setState]
      by_cases hw : w = w' <;> simp [hw, h]

/-- After the inlining loop, each block output actually consumed (the first
`os.length` of them) is classified `Nonzero` — provided the If outputs and
the block outputs are distinct values, which rules out the degenerate
self-referential graphs where the loop rewrites its own worklist. -/
theorem inlineOuts_state_nonzero (os ws : List Nat) (st : StateMap)
    (acc rest : List Node) (gouts : List Nat)
    (hdisj : ∀ o ∈ os, o ∉ ws) :
    ∀ w ∈ ws.take os.length,
      lookupState (inlineOuts os ws st acc rest gouts).1 w = State.Nonzero := by
  induction os generalizing ws st acc rest gouts with
  | nil => simp
  | cons o os ih =>
    cases ws with
    | nil => simp
    | cons w' ws =>
      intro w hw
      rw [inlineOuts]
      have hmap : ws.map (substV o w') = ws := by
        apply map_substV_id
        intro x hx hxo
        exact hdisj o (by simp) (by simp [hxo] at hx ⊢; right; exact hx)
      rw [hmap]
      rcases List.mem_cons.mp (by simpa using hw) with hww | hww
      · subst hww
        apply inlineOuts_state_mono
        rw [lookupState_setState]
        simp
      · exact ih ws (setState st w' State.Nonzero) (substNodes o w' acc)
          (substNodes o w' rest) (substVals o w' gouts)
          (fun o' ho' => by
            have := hdisj o' (by simp [ho'])
            simp at this
            exact this.2) w hww

/-- C6: when the traversal reaches a conditional whose condition value is
produced by a `prim::AutogradAnyNonZero` node all of whose operands are
classified `Zero`, the pass inserts one `prim::AutogradZero` node where the
conditional stood, classifies its single fresh output `Zero`, replaces
every output of the conditional with that one value (in the nodes already
passed, the nodes still to come, and the graph outputs), and drops the
conditional node — it does not remain in the graph. -/
theorem C6_if_all_zero (st : StateMap) (vt : TypeMap) (fresh : Nat)
    (acc : List Node) (gouts : List Nat) (cond : Nat) (ci os : List Nat)
    (bks : List (List Node × List Nat)) (rest : List Node) (dn : Node)
    (hdef : findDef (acc ++ Node.mk .ifKind (cond :: ci) os bks :: rest) cond = some dn)
    (hkind : dn.kind = NodeKind.anyNonZero)
    (hz : ∀ v ∈ dn.ins, lookupState st v = State.Zero) :
    go st vt fresh acc gouts (Node.mk .ifKind (cond :: ci) os bks :: rest) =
      go (setState st fresh State.Zero) ((fresh, JType.tensor none) :: vt) (fresh + 1)
        (multiSubstNodes os fresh (acc ++ [Node.mk .autogradZero [] [fresh] []]))
        (multiSubstVals os fresh gouts) (multiSubstNodes os fresh rest) := by
  cases dn with
  | mk k di dO dB =>
    simp only [Node.kind] at hkind
    subst hkind
    simp only [Node.ins] at hz
    rw [go]
    simp only [Node.kind, Node.ins, Node.outs, hdef]
    simp only [if_true]
    rw [if_pos hz]

/-- C6 witness: applied at a concrete configuration — a conditional guarded
by an any-nonzero test over one `Zero` operand. -/
theorem C6_if_all_zero_witness :
    findDef ([Node.mk .anyNonZero [0] [1] []] ++
        Node.mk .ifKind [1] [2] [([], [0])] :: []) 1 =
      some (Node.mk .anyNonZero [0] [1] []) ∧
    (Node.mk .anyNonZero [0] [1] []).kind = NodeKind.anyNonZero ∧
    (∀ v ∈ (Node.mk .anyNonZero [0] [1] []).ins,
      lookupState [(0, State.Zero)] v = State.Zero) ∧
    go [(0, State.Zero)] [] 10 [Node.mk .anyNonZero [0] [1] []] [2]
        [Node.mk .ifKind [1] [2] [([], [0])]] =
      go (setState [(0, State.Zero)] 10 State.Zero) [(10, JType.tensor none)] 11
        (multiSubstNodes [2] 10
          ([Node.mk .anyNonZero [0] [1] []] ++ [Node.mk .autogradZero [] [10] []]))
        (multiSubstVals [2] 10 [2]) (multiSubstNodes [2] 10 []) :=
  ⟨rfl, rfl, by decide,
   C6_if_all_zero [(0, State.Zero)] [] 10 [Node.mk .anyNonZero [0] [1] []] [2]
     1 [] [2] [([], [0])] [] (Node.mk .anyNonZero [0] [1] []) rfl rfl (by decide)⟩

/-- C7: when the traversal reaches a conditional whose condition value is
produced by a `prim::AutogradAnyNonZero` node with a non-empty operand list
all classified `Nonzero`, the pass moves every node of the first (true)
block's body into the parent graph immediately before where the conditional
stood, in their original relative order (`acc ++ body`), then — via the
sequential loop `inlineOuts` — replaces each positional output of the
conditional one-for-one with the corresponding block output, classifies
those block outputs `Nonzero` (second conjunct, under the non-aliasing
assumption that the conditional's outputs and the block outputs are
distinct values), and drops the conditional node. -/
theorem C7_if_all_nonzero (st : StateMap) (vt : TypeMap) (fresh : Nat)
    (acc : List Node) (gouts : List Nat) (cond : Nat) (ci os bouts : List Nat)
    (body : List Node) (bks : List (List Node × List Nat)) (rest : List Node)
    (dn : Node)
    (hdef : findDef
      (acc ++ Node.mk .ifKind (cond :: ci) os ((body, bouts) :: bks) :: rest) cond
        = some dn)
    (hkind : dn.kind = NodeKind.anyNonZero) (hne : dn.ins ≠ [])
    (hnz : ∀ v ∈ dn.ins, lookupState st v = State.Nonzero)
    (hlen : os.length ≤ bouts.length) :
    go st vt fresh acc gouts
        (Node.mk .ifKind (cond :: ci) os ((body, bouts) :: bks) :: rest) =
      go (inlineOuts os bouts st (acc ++ body) rest gouts).1 vt fresh
        (inlineOuts os bouts st (acc ++ body) rest gouts).2.1
        (inlineOuts os bouts st (acc ++ body) rest gouts).2.2.2
        (inlineOuts os bouts st (acc ++ body) rest gouts).2.2.1 ∧
    ((∀ o ∈ os, o ∉ bouts) →
      ∀ w ∈ bouts.take os.length,
        lookupState (inlineOuts os bouts st (acc ++ body) rest gouts).1 w
          = State.Nonzero) := by
  constructor
  · cases dn with
    | mk k di dO dB =>
      simp only [Node.kind] at hkind
      subst hkind
      simp only [Node.ins] at hnz hne
      have hz : ¬ ∀ v ∈ di, lookupState st v = State.Zero := by
        intro h
        obtain ⟨v, hv⟩ := List.exists_mem_of_ne_nil di hne
        have hvz := h v hv
        rw [hnz v hv] at hvz
        exact State.noConfusion hvz
      rw [go]
      simp only [Node.kind, Node.ins, Node.outs, Node.blocks, hdef]
      simp only [if_true]
      rw [if_neg hz, if_pos hnz]
      rw [if_pos hlen]
  · intro hdisj
    exact inlineOuts_state_nonzero os bouts st (acc ++ body) rest gouts hdisj

/-- C7 witness: applied at a concrete configuration — a conditional guarded
by an any-nonzero test over one `Nonzero` operand, whose true branch holds
one node. -/
theorem C7_if_all_nonzero_witness :
    findDef ([Node.mk .anyNonZero [0] [1] []] ++
        Node.mk .ifKind [1] [2] [([Node.mk .other [0] [3] []], [3])] :: []) 1 =
      some (Node.mk .anyNonZero [0] [1] []) ∧
    (Node.mk .anyNonZero [0] [1] []).kind = NodeKind.anyNonZero ∧
    (Node.mk .anyNonZero [0] [1] []).ins ≠ [] ∧
    (∀ v ∈ (Node.mk .anyNonZero [0] [1] []).ins,
      lookupState [(0, State.Nonzero)] v = State.Nonzero) ∧
    ([2] : List Nat).length ≤ ([3] : List Nat).length ∧
    go [(0, State.Nonzero)] [] 10 [Node.mk .anyNonZero [0] [1] []] [2]
        [Node.mk .ifKind [1] [2] [([Node.mk .other [0] [3] []], [3])]] =
      go (inlineOuts [2] [3] [(0, State.Nonzero)]
            ([Node.mk .anyNonZero [0] [1] []] ++ [Node.mk .other [0] [3] []]) [] [2]).1
        [] 10
        (inlineOuts [2] [3] [(0, State.Nonzero)]
            ([Node.mk .anyNonZero [0] [1] []] ++ [Node.mk .other [0] [3] []]) [] [2]).2.1
        (inlineOuts [2] [3] [(0, State.Nonzero)]
            ([Node.mk .anyNonZero [0] [1] []] ++ [Node.mk .other [0] [3] []]) [] [2]).2.2.2
        (inlineOuts [2] [3] [(0, State.Nonzero)]
            ([Node.mk .anyNonZero [0] [1] []] ++ [Node.mk .other [0] [3] []]) [] [2]).2.2.1 :=
  ⟨rfl, rfl, by decide, by decide, by decide,
   (C7_if_all_nonzero [(0, State.Nonzero)] [] 10 [Node.mk .anyNonZero [0] [1] []] [2]
     1 [] [2] [3] [Node.mk .other [0] [3] []] [] []
     (Node.mk .anyNonZero [0] [1] []) rfl rfl (by decide) (by decide) (by decide)).1⟩

/-- C10: when the traversal reaches a conditional whose condition value is
not produced by a `prim::AutogradAnyNonZero` node (either its defining node
has a different kind, or it has no defining node in the node list — a graph
input), the conditional and its blocks are kept exactly as they are,
nothing else changes, and every one of its outputs is classified
`Unknown` — the same conservative treatment as the mixed-guard case. -/
theorem C10_if_not_anynonzero (st : StateMap) (vt : TypeMap) (fresh : Nat)
    (acc : List Node) (gouts : List Nat) (cond : Nat) (ci os : List Nat)
    (bks : List (List Node × List Nat)) (rest : List Node) :
    ((findDef (acc ++ Node.mk .ifKind (cond :: ci) os bks :: rest) cond = none) →
      go st vt fresh acc gouts (Node.mk .ifKind (cond :: ci) os bks :: rest) =
        go (setAll st os State.Unknown) vt fresh
          (acc ++ [Node.mk .ifKind (cond :: ci) os bks]) gouts rest) ∧
    (∀ dn, findDef (acc ++ Node.mk .ifKind (cond :: ci) os bks :: rest) cond = some dn →
      dn.kind ≠ NodeKind.anyNonZero →
      go st vt fresh acc gouts (Node.mk .ifKind (cond :: ci) os bks :: rest) =
        go (setAll st os State.Unknown) vt fresh
          (acc ++ [Node.mk .ifKind (cond :: ci) os bks]) gouts rest) := by
  constructor
  · intro hdef
    rw [go]
    simp only [Node.kind, Node.ins, Node.outs, hdef]
  · intro dn hdef hkind
    cases dn with
    | mk k di dO dB =>
      simp only [Node.kind] at hkind
      rw [go]
      simp only [Node.kind, Node.ins, Node.outs, hdef]
      rw [if_neg hkind]

/-- C10 witness: both parts applied at concrete configurations — a
conditional whose condition is a graph input, and one whose condition is
produced by an ordinary (non-any-nonzero) node. -/
theorem C10_if_not_anynonzero_witness :
    (findDef ([] ++ Node.mk .ifKind [1] [2] [([], [0])] :: []) 1 = none ∧
      go [] [] 10 [] [2] [Node.mk .ifKind [1] [2] [([], [0])]] =
        go (setAll [] [2] State.Unknown) [] 10
          ([] ++ [Node.mk .ifKind [1] [2] [([], [0])]]) [2] []) ∧
    (findDef ([Node.mk .other [0] [1] []] ++
        Node.mk .ifKind [1] [2] [([], [0])] :: []) 1 =
      some (Node.mk .other [0] [1] []) ∧
      (Node.mk .other [0] [1] []).kind ≠ NodeKind.anyNonZero ∧
      go [] [] 10 [Node.mk .other [0] [1] []] [2]
          [Node.mk .ifKind [1] [2] [([], [0])]] =
        go (setAll [] [2] State.Unknown) [] 10
          ([Node.mk .other [0] [1] []] ++ [Node.mk .ifKind [1] [2] [([], [0])]]) [2] []) :=
  ⟨⟨rfl, (C10_if_not_anynonzero [] [] 10 [] [2] 1 [] [2] [([], [0])] []).1 rfl⟩,
   ⟨rfl, by decide,
    (C10_if_not_anynonzero [] [] 10 [Node.mk .other [0] [1] []] [2] 1 [] [2]
      [([], [0])] []).2 (Node.mk .other [0] [1] []) rfl (by decide)⟩⟩

/-! ### C9: the defs-precede-uses ordering invariant -/

mutual
/-- Defs-precede-uses for one node at a position where the values `defined`
are visible: every input is already defined, and every nested block is
internally ordered, with the outer visible set as its starting scope and
its block outputs drawn from that scope or the body's definitions. -/
def nodeOk (defined : List Nat) : Node → Prop
  | .mk _ i _ bs => (∀ v ∈ i, v ∈ defined) ∧ blocksOk defined bs

def blocksOk (defined : List Nat) : List (List Node × List Nat) → Prop
  | [] => True
  | (body, bouts) :: bs =>
      seqOk defined body ∧
      (∀ v ∈ bouts, v ∈ defined ++ body.flatMap Node.outs) ∧
      blocksOk defined bs

/-- Defs-precede-uses for a node sequence: each node's inputs are visible
at its position, and each node's outputs become visible afterwards. -/
def seqOk (defined : List Nat) : List Node → Prop
  | [] => True
  | n :: ns => nodeOk defined n ∧ seqOk (defined ++ n.outs) ns
end

mutual
/-- All definition sites of a node: its outputs and, recursively, every
definition inside its blocks. -/
def nodeDefs : Node → List Nat
  | .mk _ _ o bs => o ++ blocksDefs bs

def blocksDefs : List (List Node × List Nat) → List Nat
  | [] => []
  | (body, _) :: bs => seqDefs body ++ blocksDefs bs

def seqDefs : List Node → List Nat
  | [] => []
  | n :: ns => nodeDefs n ++ seqDefs ns
end

/-- The top-level outputs of a node sequence (the values it makes visible
to what follows it in the same scope). -/
def topOuts (ns : List Node) : List Nat :=
  ns.flatMap Node.outs

@[simp] theorem nodeOk_mk (D : List Nat) (k : NodeKind) (i o : List Nat)
    (bs : List (List Node × List Nat)) :
    nodeOk D (.mk k i o bs) ↔ ((∀ v ∈ i, v ∈ D) ∧ blocksOk D bs) := by
  rw [nodeOk]

@[simp] theorem blocksOk_nil (D : List Nat) : blocksOk D [] := by
  rw [blocksOk]; trivial

@[simp] theorem blocksOk_cons (D : List Nat) (body : List Node) (bouts : List Nat)
    (bs : List (List Node × List Nat)) :
    blocksOk D ((body, bouts) :: bs) ↔
      (seqOk D body ∧ (∀ v ∈ bouts, v ∈ D ++ body.flatMap Node.outs) ∧
        blocksOk D bs) := by
  rw [blocksOk]

@[simp] theorem seqOk_nil (D : List Nat) : seqOk D [] := by
  rw [seqOk]; trivial

@[simp] theorem seqOk_cons (D : List Nat) (n : Node) (ns : List Node) :
    seqOk D (n :: ns) ↔ (nodeOk D n ∧ seqOk (D ++ n.outs) ns) := by
  rw [seqOk]

@[simp] theorem nodeDefs_mk (k : NodeKind) (i o : List Nat)
    (bs : List (List Node × List Nat)) :
    nodeDefs (.mk k i o bs) = o ++ blocksDefs bs := by
  rw [nodeDefs]

@[simp] theorem blocksDefs_nil : blocksDefs [] = [] := by
  rw [blocksDefs]

@[simp] theorem blocksDefs_cons (body : List Node) (bouts : List Nat)
    (bs : List (List Node × List Nat)) :
    blocksDefs ((body, bouts) :: bs) = seqDefs body ++ blocksDefs bs := by
  rw [blocksDefs]

@[simp] theorem seqDefs_nil : seqDefs [] = [] := by
  rw [seqDefs]

@[simp] theorem seqDefs_cons (n : Node) (ns : List Node) :
    seqDefs (n :: ns) = nodeDefs n ++ seqDefs ns := by
  rw [seqDefs]

@[simp] theorem topOuts_nil : topOuts [] = [] := rfl

@[simp] theorem topOuts_cons (n : Node) (ns : List Node) :
    topOuts (n :: ns) = n.outs ++ topOuts ns := by
  simp [topOuts]

theorem topOuts_append (xs ys : List Node) :
    topOuts (xs ++ ys) = topOuts xs ++ topOuts ys := by
  simp [topOuts]

theorem seqDefs_append (xs ys : List Node) :
    seqDefs (xs ++ ys) = seqDefs xs ++ seqDefs ys := by
  induction xs with
  | nil => simp
  | cons x xs ih => simp [ih]

theorem Node.subst_outs (f t : Nat) (n : Node) : (Node.subst f t n).outs = n.outs := by
  cases n with
  | mk k i o bs => simp [Node.outs]

theorem Node.outs_mem_nodeDefs (n : Node) : ∀ v ∈ n.outs, v ∈ nodeDefs n := by
  cases n with
  | mk k i o bs => simp [Node.outs]; intro v hv; exact Or.inl hv

theorem topOuts_subset_seqDefs (ns : List Node) : ∀ v ∈ topOuts ns, v ∈ seqDefs ns := by
  induction ns with
  | nil => simp
  | cons n ns ih =>
    intro v hv
    simp at hv ⊢
    rcases hv with hv | hv
    · exact Or.inl (Node.outs_mem_nodeDefs n v hv)
    · exact Or.inr (ih v hv)

theorem topOuts_substNodes (f t : Nat) (ns : List Node) :
    topOuts (substNodes f t ns) = topOuts ns := by
  induction ns with
  | nil => rfl
  | cons n ns ih =>
    simp only [substNodes, List.map_cons] at *
    simp [Node.subst_outs, ih]

theorem seqOk_append (xs ys : List Node) (D : List Nat) :
    seqOk D (xs ++ ys) ↔ (seqOk D xs ∧ seqOk (D ++ topOuts xs) ys) := by
  induction xs generalizing D with
  | nil => simp
  | cons x xs ih =>
    simp only [List.cons_append, seqOk_cons, ih, topOuts_cons, List.append_assoc]
    tauto

mutual
/-- Enlarging the visible set preserves defs-precede-uses. -/
theorem nodeOk_mono : ∀ (n : Node) (D E : List Nat), (∀ v ∈ D, v ∈ E) →
    nodeOk D n → nodeOk E n
  | .mk k i o bs, D, E, hDE, h => by
    rw [nodeOk] at h ⊢
    exact ⟨fun v hv => hDE v (h.1 v hv), blocksOk_mono bs D E hDE h.2⟩

theorem blocksOk_mono : ∀ (bs : List (List Node × List Nat)) (D E : List Nat),
    (∀ v ∈ D, v ∈ E) → blocksOk D bs → blocksOk E bs
  | [], _, _, _, _ => blocksOk_nil _
  | (body, bouts) :: bs, D, E, hDE, h => by
    rw [blocksOk] at h ⊢
    refine ⟨seqOk_mono body D E hDE h.1, ?_, blocksOk_mono bs D E hDE h.2.2⟩
    intro v hv
    have hv' := h.2.1 v hv
    rw [List.mem_append] at hv' ⊢
    rcases hv' with h1 | h2
    · exact Or.inl (hDE v h1)
    · exact Or.inr h2

theorem seqOk_mono : ∀ (ns : List Node) (D E : List Nat), (∀ v ∈ D, v ∈ E) →
    seqOk D ns → seqOk E ns
  | [], _, _, _, _ => seqOk_nil _
  | n :: ns, D, E, hDE, h => by
    rw [seqOk] at h ⊢
    refine ⟨nodeOk_mono n D E hDE h.1, seqOk_mono ns (D ++ n.outs) (E ++ n.outs) ?_ h.2⟩
    intro v hv
    rw [List.mem_append] at hv ⊢
    rcases hv with h1 | h2
    · exact Or.inl (hDE v h1)
    · exact Or.inr h2
end

mutual
/-- Substituting a use `o` by a value `t` that is visible in the enlarged
scope preserves defs-precede-uses; the scope may drop `o` itself. -/
theorem nodeOk_subst : ∀ (n : Node) (D E : List Nat) (o t : Nat),
    (∀ v ∈ D, v ≠ o → v ∈ E) → t ∈ E → nodeOk D n → nodeOk E (Node.subst o t n)
  | .mk k i o' bs, D, E, o, t, hDE, ht, h => by
    rw [nodeOk] at h
    rw [Node.subst_mk, nodeOk]
    constructor
    · intro v hv
      rw [List.mem_map] at hv
      obtain ⟨u, hu, huv⟩ := hv
      subst huv
      by_cases huo : u = o
      · subst huo; simpa [substV] using ht
      · rw [substV, if_neg huo]
        exact hDE u (h.1 u hu) huo
    · exact blocksOk_subst bs D E o t hDE ht h.2

theorem blocksOk_subst : ∀ (bs : List (List Node × List Nat)) (D E : List Nat)
    (o t : Nat), (∀ v ∈ D, v ≠ o → v ∈ E) → t ∈ E → blocksOk D bs →
    blocksOk E (bs.map fun b => (b.1.map (Node.subst o t), b.2.map (substV o t)))
  | [], _, _, _, _, _, _, _ => blocksOk_nil _
  | (body, bouts) :: bs, D, E, o, t, hDE, ht, h => by
    rw [blocksOk] at h
    simp only [List.map_cons, blocksOk_cons]
    refine ⟨seqOk_subst body D E o t hDE ht h.1, ?_,
      blocksOk_subst bs D E o t hDE ht h.2.2⟩
    intro v hv
    rw [List.mem_map] at hv
    obtain ⟨u, hu, huv⟩ := hv
    subst huv
    have hob : (List.map (Node.subst o t) body).flatMap Node.outs
        = body.flatMap Node.outs := by
      have := topOuts_substNodes o t body
      simpa [topOuts, substNodes] using this
    rw [hob]
    by_cases huo : u = o
    · subst huo
      simp only [substV, if_pos rfl]
      rw [List.mem_append]
      exact Or.inl ht
    · rw [substV, if_neg huo]
      have hu' := h.2.1 u hu
      rw [List.mem_append] at hu' ⊢
      rcases hu' with h1 | h2
      · exact Or.inl (hDE u h1 huo)
      · exact Or.inr h2

theorem seqOk_subst : ∀ (ns : List Node) (D E : List Nat) (o t : Nat),
    (∀ v ∈ D, v ≠ o → v ∈ E) → t ∈ E → seqOk D ns →
    seqOk E (ns.map (Node.subst o t))
  | [], _, _, _, _, _, _, _ => seqOk_nil _
  | n :: ns, D, E, o, t, hDE, ht, h => by
    rw [seqOk] at h
    simp only [List.map_cons, seqOk_cons]
    refine ⟨nodeOk_subst n D E o t hDE ht h.1, ?_⟩
    rw [Node.subst_outs]
    refine seqOk_subst ns (D ++ n.outs) (E ++ n.outs) o t ?_ ?_ h.2
    · intro v hv hvo
      rw [List.mem_append] at hv ⊢
      rcases hv with h1 | h2
      · exact Or.inl (hDE v h1 hvo)
      · exact Or.inr h2
    · rw [List.mem_append]; exact Or.inl ht
end

mutual
/-- Substituting a value that is neither visible nor defined anywhere in a
well-ordered node leaves the node unchanged (it has no use of that value). -/
theorem node_subst_id : ∀ (n : Node) (D : List Nat) (o t : Nat),
    o ∉ D → o ∉ nodeDefs n → nodeOk D n → Node.subst o t n = n
  | .mk k i o' bs, D, o, t, hD, hdefs, h => by
    rw [nodeOk] at h
    rw [nodeDefs_mk, List.mem_append] at hdefs
    rw [Node.subst_mk]
    have hi : i.map (substV o t) = i := by
      apply map_substV_id
      intro x hx hxo
      subst hxo
      exact hD (h.1 x hx)
    rw [hi]
    have hb : (bs.map fun b => (b.1.map (Node.subst o t), b.2.map (substV o t))) = bs :=
      blocks_subst_id bs D o t hD (fun hc => hdefs (Or.inr hc)) h.2
    rw [hb]

theorem blocks_subst_id : ∀ (bs : List (List Node × List Nat)) (D : List Nat)
    (o t : Nat), o ∉ D → o ∉ blocksDefs bs → blocksOk D bs →
    (bs.map fun b => (b.1.map (Node.subst o t), b.2.map (substV o t))) = bs
  | [], _, _, _, _, _, _ => rfl
  | (body, bouts) :: bs, D, o, t, hD, hdefs, h => by
    rw [blocksOk] at h
    rw [blocksDefs_cons, List.mem_append] at hdefs
    simp only [List.map_cons]
    have h1 : body.map (Node.subst o t) = body :=
      seq_subst_id body D o t hD (fun hc => hdefs (Or.inl hc)) h.1
    have h2 : bouts.map (substV o t) = bouts := by
      apply map_substV_id
      intro x hx hxo
      subst hxo
      have := h.2.1 x hx
      rw [List.mem_append] at this
      rcases this with hc | hc
      · exact hD hc
      · exact hdefs (Or.inl (topOuts_subset_seqDefs body x (by simpa [topOuts] using hc)))
    have h3 : (bs.map fun b => (b.1.map (Node.subst o t), b.2.map (substV o t))) = bs :=
      blocks_subst_id bs D o t hD (fun hc => hdefs (Or.inr hc)) h.2.2
    rw [h1, h2, h3]

theorem seq_subst_id : ∀ (ns : List Node) (D : List Nat) (o t : Nat),
    o ∉ D → o ∉ seqDefs ns → seqOk D ns → ns.map (Node.subst o t) = ns
  | [], _, _, _, _, _, _ => rfl
  | n :: ns, D, o, t, hD, hdefs, h => by
    rw [seqOk] at h
    rw [seqDefs_cons, List.mem_append] at hdefs
    simp only [List.map_cons]
    have h1 : Node.subst o t n = n :=
      node_subst_id n D o t hD (fun hc => hdefs (Or.inl hc)) h.1
    have h2 : ns.map (Node.subst o t) = ns := by
      refine seq_subst_id ns (D ++ n.outs) o t ?_ (fun hc => hdefs (Or.inr hc)) h.2
      rw [List.mem_append]
      rintro (hc | hc)
      · exact hD hc
      · exact hdefs (Or.inl (Node.outs_mem_nodeDefs n o hc))
    rw [h1, h2]
end

mutual
/-- Substitution does not change any definition site. -/
theorem nodeDefs_subst : ∀ (n : Node) (o t : Nat),
    nodeDefs (Node.subst o t n) = nodeDefs n
  | .mk k i o' bs, o, t => by
    rw [Node.subst_mk, nodeDefs_mk, nodeDefs_mk, blocksDefs_subst bs o t]

theorem blocksDefs_subst : ∀ (bs : List (List Node × List Nat)) (o t : Nat),
    blocksDefs (bs.map fun b => (b.1.map (Node.subst o t), b.2.map (substV o t)))
      = blocksDefs bs
  | [], _, _ => rfl
  | (body, bouts) :: bs, o, t => by
    simp only [List.map_cons, blocksDefs_cons]
    rw [seqDefs_subst body o t, blocksDefs_subst bs o t]

theorem seqDefs_subst : ∀ (ns : List Node) (o t : Nat),
    seqDefs (ns.map (Node.subst o t)) = seqDefs ns
  | [], _, _ => rfl
  | n :: ns, o, t => by
    simp only [List.map_cons, seqDefs_cons]
    rw [nodeDefs_subst n o t, seqDefs_subst ns o t]
end

theorem seqDefs_substNodes (o t : Nat) (ns : List Node) :
    seqDefs (substNodes o t ns) = seqDefs ns :=
  seqDefs_subst ns o t

theorem multiSubst_wf (V : List Nat) :
    ∀ (os : List Nat) (z : Nat) (rest : List Node), z ∈ V →
      seqOk (V ++ os) rest → seqOk V (multiSubstNodes os z rest) := by
  intro os
  induction os generalizing V with
  | nil =>
    intro z rest hz h
    simpa [multiSubstNodes] using h
  | cons o os ih =>
    intro z rest hz h
    have hstep : multiSubstNodes (o :: os) z rest
        = multiSubstNodes os z (substNodes o z rest) := rfl
    rw [hstep]
    apply ih V z _ hz
    refine seqOk_subst rest (V ++ o :: os) (V ++ os) o z ?_ ?_ h
    · intro v hv hvo
      rw [List.mem_append] at hv ⊢
      rcases hv with h1 | h2
      · exact Or.inl h1
      · rcases List.mem_cons.mp h2 with h3 | h3
        · exact absurd h3 hvo
        · exact Or.inr h3
    · rw [List.mem_append]; exact Or.inl hz

theorem multiSubst_id (gins : List Nat) :
    ∀ (os : List Nat) (z : Nat) (acc : List Node), seqOk gins acc →
      (∀ o ∈ os, o ∉ gins) → (∀ o ∈ os, o ∉ seqDefs acc) →
      multiSubstNodes os z acc = acc := by
  intro os
  induction os with
  | nil => intro z acc _ _ _; rfl
  | cons o os ih =>
    intro z acc hacc hg hd
    have hstep : multiSubstNodes (o :: os) z acc
        = multiSubstNodes os z (substNodes o z acc) := rfl
    rw [hstep]
    have hid : substNodes o z acc = acc :=
      seq_subst_id acc gins o z (hg o (by simp)) (hd o (by simp)) hacc
    rw [hid]
    exact ih z acc hacc (fun o' ho' => hg o' (by simp [ho']))
      (fun o' ho' => hd o' (by simp [ho']))

theorem seqDefs_multiSubst (os : List Nat) (z : Nat) (ns : List Node) :
    seqDefs (multiSubstNodes os z ns) = seqDefs ns := by
  induction os generalizing ns with
  | nil => rfl
  | cons o os ih =>
    have hstep : multiSubstNodes (o :: os) z ns
        = multiSubstNodes os z (substNodes o z ns) := rfl
    rw [hstep, ih, seqDefs_substNodes]

/-- The inlining loop: under the well-formedness side conditions, it leaves
the already-passed nodes untouched, keeps the remaining nodes well-ordered
relative to the visible set without the If's outputs, and creates no new
definition sites. -/
theorem inlineOuts_main (gins : List Nat) :
    ∀ (os ws : List Nat) (st : StateMap) (acc rest : List Node) (gouts : List Nat),
      seqOk gins acc →
      (∀ o ∈ os, o ∉ gins) → (∀ o ∈ os, o ∉ seqDefs acc) →
      (∀ w ∈ ws, w ∈ gins ++ topOuts acc) →
      os.length ≤ ws.length →
      seqOk (gins ++ topOuts acc ++ os) rest →
      (inlineOuts os ws st acc rest gouts).2.1 = acc ∧
      seqOk (gins ++ topOuts acc) (inlineOuts os ws st acc rest gouts).2.2.1 ∧
      seqDefs (inlineOuts os ws st acc rest gouts).2.2.1 = seqDefs rest := by
  intro os
  induction os with
  | nil =>
    intro ws st acc rest gouts hacc _ _ _ _ hrest
    cases ws with
    | nil => exact ⟨rfl, by simpa using hrest, rfl⟩
    | cons w ws => exact ⟨rfl, by simpa using hrest, rfl⟩
  | cons o os ih =>
    intro ws st acc rest gouts hacc hg hd hws hlen hrest
    cases ws with
    | nil => simp at hlen
    | cons w ws =>
      rw [inlineOuts]
      have hgo : o ∉ gins := hg o (by simp)
      have hdo : o ∉ seqDefs acc := hd o (by simp)
      have haccid : substNodes o w acc = acc :=
        seq_subst_id acc gins o w hgo hdo hacc
      have hwsid : ws.map (substV o w) = ws := by
        apply map_substV_id
        intro x hx hxo
        have hxw := hws x (by simp [hx])
        rw [hxo, List.mem_append] at hxw
        rcases hxw with h1 | h2
        · exact hgo h1
        · exact hdo (topOuts_subset_seqDefs acc o h2)
      rw [haccid, hwsid]
      have hrest' : seqOk (gins ++ topOuts acc ++ os) (substNodes o w rest) := by
        refine seqOk_subst rest (gins ++ topOuts acc ++ o :: os)
          (gins ++ topOuts acc ++ os) o w ?_ ?_ hrest
        · intro v hv hvo
          rw [List.mem_append] at hv ⊢
          rcases hv with h1 | h2
          · exact Or.inl h1
          · rcases List.mem_cons.mp h2 with h3 | h3
            · exact absurd h3 hvo
            · exact Or.inr h3
        · rw [List.mem_append]
          exact Or.inl (hws w (by simp))
      have := ih ws (setState st w State.Nonzero) acc (substNodes o w rest)
        (substVals o w gouts) hacc
        (fun o' ho' => hg o' (by simp [ho']))
        (fun o' ho' => hd o' (by simp [ho']))
        (fun w' hw' => hws w' (by simp [hw']))
        (by simpa using Nat.le_of_succ_le_succ hlen) hrest'
      refine ⟨this.1, this.2.1, ?_⟩
      rw [this.2.2, seqDefs_substNodes]

/-- Invariant of a traversal configuration (already-passed nodes `acc`,
nodes still to visit `work`): both pieces are well-ordered (defs precede
uses), every definition site is unique (value identity of the C++ `Value*`
graph, which the id encoding must posit explicitly), and every definition
site is below the fresh-id counter. -/
def ConfigOk (gins : List Nat) (fresh : Nat) (acc work : List Node) : Prop :=
  seqOk gins acc ∧ seqOk (gins ++ topOuts acc) work ∧
  (gins ++ seqDefs acc ++ seqDefs work).Nodup ∧
  ∀ v ∈ gins ++ seqDefs acc ++ seqDefs work, v < fresh

/-- Leaving the visited node in place preserves the invariant. -/
theorem ConfigOk_keep (gins : List Nat) (fresh : Nat) (acc : List Node)
    (n : Node) (rest : List Node) (h : ConfigOk gins fresh acc (n :: rest)) :
    ConfigOk gins fresh (acc ++ [n]) rest := by
  obtain ⟨h1, h2, h3, h4⟩ := h
  rw [seqOk_cons] at h2
  refine ⟨?_, ?_, ?_, ?_⟩
  · rw [seqOk_append]
    exact ⟨h1, by simp [h2.1]⟩
  · refine seqOk_mono _ _ _ ?_ h2.2
    intro v hv
    simp only [topOuts_append, topOuts_cons, topOuts_nil, List.append_nil,
      List.mem_append] at hv ⊢
    tauto
  · simp only [seqDefs_append, seqDefs_cons, seqDefs_nil, List.append_nil,
      List.append_assoc] at h3 ⊢
    exact h3
  · intro v hv
    apply h4
    simp only [seqDefs_append, seqDefs_cons, seqDefs_nil, List.append_nil,
      List.append_assoc, List.mem_append] at hv ⊢
    tauto

/-- Dropping the visited single-output node and forwarding its output to an
already-visible value preserves the invariant (the visited nodes are not
touched by the replacement, since under uniqueness of definitions they
cannot use the dropped output). -/
theorem ConfigOk_forward (gins : List Nat) (fresh : Nat) (acc : List Node)
    (k : NodeKind) (i : List Nat) (o : Nat) (bks : List (List Node × List Nat))
    (rest : List Node) (t : Nat)
    (ht : t ∈ gins ++ topOuts acc)
    (h : ConfigOk gins fresh acc (Node.mk k i [o] bks :: rest)) :
    substNodes o t acc = acc ∧
    ConfigOk gins fresh acc (substNodes o t rest) := by
  obtain ⟨h1, h2, h3, h4⟩ := h
  rw [seqOk_cons] at h2
  have hout : (Node.mk k i [o] bks).outs = [o] := rfl
  have hdefs : seqDefs (Node.mk k i [o] bks :: rest)
      = ([o] ++ blocksDefs bks) ++ seqDefs rest := by
    simp [List.append_assoc]
  have h3' : ((gins ++ seqDefs acc) ++ (([o] ++ blocksDefs bks) ++ seqDefs rest)).Nodup := by
    rw [hdefs] at h3
    simpa [List.append_assoc] using h3
  have hdisj : ∀ v ∈ ([o] ++ blocksDefs bks) ++ seqDefs rest, v ∉ gins ++ seqDefs acc := by
    rw [List.nodup_append] at h3'
    intro v hv
    exact fun hvg => (List.disjoint_left.mp h3'.2.2) hvg hv
  have hog : o ∉ gins ++ seqDefs acc := hdisj o (by simp)
  have haccid : substNodes o t acc = acc := by
    refine seq_subst_id acc gins o t ?_ ?_ h1
    · intro hc; exact hog (by simp [hc])
    · intro hc; exact hog (by simp [hc])
  refine ⟨haccid, h1, ?_, ?_, ?_⟩
  · refine seqOk_subst rest ((gins ++ topOuts acc) ++ [o]) (gins ++ topOuts acc) o t ?_ ht ?_
    · intro v hv hvo
      simp only [List.mem_append] at hv ⊢
      rcases hv with hv | hv
      · exact hv
      · simp at hv; exact absurd hv hvo
    · rw [← hout]; exact h2.2
  · rw [seqDefs_substNodes]
    have hsub : List.Sublist ((gins ++ seqDefs acc) ++ seqDefs rest)
        ((gins ++ seqDefs acc) ++ (([o] ++ blocksDefs bks) ++ seqDefs rest)) :=
      List.Sublist.append_left (List.sublist_append_right _ _) _
    simpa [List.append_assoc] using h3'.sublist hsub
  · intro v hv
    apply h4
    rw [seqDefs_substNodes] at hv
    simp only [hdefs, List.mem_append] at hv ⊢
    tauto

theorem nodup_append3 (l1 l2 l3 : List Nat) :
    (l1 ++ l2 ++ l3).Nodup ↔
      (l1.Nodup ∧ l2.Nodup ∧ l3.Nodup ∧
        (∀ v ∈ l1, v ∉ l2) ∧ (∀ v ∈ l1, v ∉ l3) ∧ (∀ v ∈ l2, v ∉ l3)) := by
  rw [List.nodup_append, List.nodup_append]
  constructor
  · rintro ⟨⟨ha, hb, hab⟩, hc, habc⟩
    exact ⟨ha, hb, hc, fun v hv hv2 => hab hv hv2,
      fun v hv hv3 => habc (List.mem_append.mpr (Or.inl hv)) hv3,
      fun v hv hv3 => habc (List.mem_append.mpr (Or.inr hv)) hv3⟩
  · rintro ⟨ha, hb, hc, hab, hac, hbc⟩
    refine ⟨⟨ha, hb, ?_⟩, hc, ?_⟩
    · intro v hv hv2
      exact hab v hv hv2
    · intro v hv hv3
      rcases List.mem_append.mp hv with hv | hv
      · exact hac v hv hv3
      · exact hbc v hv hv3

theorem nodup_insert_two (g dA dR : List Nat) (f1 f2 : Nat)
    (h : (g ++ dA ++ dR).Nodup) (hf1 : f1 ∉ g ++ dA ++ dR)
    (hf2 : f2 ∉ g ++ dA ++ dR) (hne : f1 ≠ f2) :
    (g ++ (dA ++ [f1] ++ [f2]) ++ dR).Nodup := by
  rw [nodup_append3] at h
  obtain ⟨h1, h2, h3, h4, h5, h6⟩ := h
  simp only [List.mem_append, not_or] at hf1 hf2
  rw [nodup_append3]
  refine ⟨h1, ?_, h3, ?_, h5, ?_⟩
  · rw [nodup_append3]
    refine ⟨h2, by simp, by simp, ?_, ?_, ?_⟩
    · intro v hv
      simp only [List.mem_singleton]
      intro hvf; rw [hvf] at hv; exact hf1.1.2 hv
    · intro v hv
      simp only [List.mem_singleton]
      intro hvf; rw [hvf] at hv; exact hf2.1.2 hv
    · intro v hv
      simp only [List.mem_singleton] at hv
      simp only [List.mem_singleton]
      intro hvf
      rw [hv] at hvf
      exact hne hvf
  · intro v hv
    simp only [List.mem_append, List.mem_singleton, not_or]
    refine ⟨⟨h4 v hv, ?_⟩, ?_⟩
    · intro hvf; rw [hvf] at hv; exact hf1.1.1 hv
    · intro hvf; rw [hvf] at hv; exact hf2.1.1 hv
  · intro v hv
    simp only [List.mem_append, List.mem_singleton] at hv
    rcases hv with (hv | hv) | hv
    · exact h6 v hv
    · rw [hv]; exact hf1.2
    · rw [hv]; exact hf2.2

theorem nodup_insert_one (g dA dR : List Nat) (f1 : Nat)
    (h : (g ++ dA ++ dR).Nodup) (hf1 : f1 ∉ g ++ dA ++ dR) :
    (g ++ (dA ++ [f1]) ++ dR).Nodup := by
  rw [nodup_append3] at h
  obtain ⟨h1, h2, h3, h4, h5, h6⟩ := h
  simp only [List.mem_append, not_or] at hf1
  rw [nodup_append3]
  refine ⟨h1, ?_, h3, ?_, h5, ?_⟩
  · rw [List.nodup_append]
    refine ⟨h2, by simp, ?_⟩
    intro v hv hvf
    simp only [List.mem_singleton] at hvf
    rw [hvf] at hv; exact hf1.1.2 hv
  · intro v hv
    simp only [List.mem_append, List.mem_singleton, not_or]
    refine ⟨h4 v hv, ?_⟩
    intro hvf; rw [hvf] at hv; exact hf1.1.1 hv
  · intro v hv
    simp only [List.mem_append, List.mem_singleton] at hv
    rcases hv with hv | hv
    · exact h6 v hv
    · rw [hv]; exact hf1.2

/-- The both-`Nonzero` add rewrite preserves the invariant: the constant
and the ordinary add are inserted before the cursor with fresh outputs, and
the original output is forwarded to the new one. -/
theorem ConfigOk_bothNonzero (gins : List Nat) (fresh : Nat) (acc : List Node)
    (a b o : Nat) (extra : List Nat) (bks : List (List Node × List Nat))
    (rest : List Node)
    (h : ConfigOk gins fresh acc (Node.mk .autogradAdd (a :: b :: extra) [o] bks :: rest)) :
    substNodes o (fresh + 1)
        (acc ++ [Node.mk (.constant 1) [] [fresh] [],
                 Node.mk .atenAdd [a, b, fresh] [fresh + 1] []])
      = acc ++ [Node.mk (.constant 1) [] [fresh] [],
                Node.mk .atenAdd [a, b, fresh] [fresh + 1] []] ∧
    ConfigOk gins (fresh + 2)
      (acc ++ [Node.mk (.constant 1) [] [fresh] [],
               Node.mk .atenAdd [a, b, fresh] [fresh + 1] []])
      (substNodes o (fresh + 1) rest) := by
  obtain ⟨h1, h2, h3, h4⟩ := h
  rw [seqOk_cons] at h2
  have hva : a ∈ gins ++ topOuts acc := by
    have := (nodeOk_mk _ _ _ _ _ |>.mp h2.1).1
    exact this a (by simp)
  have hvb : b ∈ gins ++ topOuts acc := by
    have := (nodeOk_mk _ _ _ _ _ |>.mp h2.1).1
    exact this b (by simp)
  have hdefs : seqDefs (Node.mk .autogradAdd (a :: b :: extra) [o] bks :: rest)
      = ([o] ++ blocksDefs bks) ++ seqDefs rest := by
    simp [List.append_assoc]
  have h3' : ((gins ++ seqDefs acc) ++ (([o] ++ blocksDefs bks) ++ seqDefs rest)).Nodup := by
    rw [hdefs] at h3
    simpa [List.append_assoc] using h3
  have hog : o ∉ gins ++ seqDefs acc := by
    rw [List.nodup_append] at h3'
    exact fun hvg => (List.disjoint_left.mp h3'.2.2) hvg (by simp)
  have hofr : o < fresh := by
    apply h4
    rw [hdefs]
    simp
  -- the two inserted nodes
  set constN := Node.mk (.constant 1) [] [fresh] [] with hconstN
  set addN := Node.mk .atenAdd [a, b, fresh] [fresh + 1] [] with haddN
  have hacc2 : seqOk gins (acc ++ [constN, addN]) := by
    rw [seqOk_append]
    refine ⟨h1, ?_⟩
    rw [seqOk_cons, seqOk_cons]
    refine ⟨by simp [hconstN], ?_, seqOk_nil _⟩
    rw [nodeOk_mk]
    refine ⟨?_, blocksOk_nil _⟩
    intro v hv
    simp only [hconstN, Node.outs, List.mem_cons, List.mem_singleton] at hv ⊢
    rcases hv with hv | hv | hv
    · subst hv; simp only [List.mem_append] at hva ⊢; tauto
    · subst hv; simp only [List.mem_append] at hvb ⊢; tauto
    · simp at hv; subst hv; simp
  have hdacc2 : seqDefs (acc ++ [constN, addN])
      = seqDefs acc ++ [fresh] ++ [fresh + 1] := by
    simp [seqDefs_append, hconstN, haddN, List.append_assoc]
  have haccid : substNodes o (fresh + 1) (acc ++ [constN, addN]) = acc ++ [constN, addN] := by
    refine seq_subst_id _ gins o (fresh + 1) ?_ ?_ hacc2
    · intro hc; exact hog (by simp [hc])
    · rw [hdacc2]
      simp only [List.mem_append, List.mem_singleton, not_or]
      refine ⟨⟨fun hc => hog (by simp [hc]), ?_⟩, ?_⟩ <;> omega
  have htouts2 : topOuts (acc ++ [constN, addN])
      = topOuts acc ++ [fresh] ++ [fresh + 1] := by
    simp [topOuts_append, hconstN, haddN, Node.outs, List.append_assoc]
  refine ⟨haccid, hacc2, ?_, ?_, ?_⟩
  · -- remaining nodes stay ordered after forwarding o to fresh+1
    refine seqOk_subst rest ((gins ++ topOuts acc) ++ [o])
      (gins ++ topOuts (acc ++ [constN, addN])) o (fresh + 1) ?_ ?_ ?_
    · intro v hv hvo
      rw [htouts2]
      simp only [List.mem_append, List.mem_singleton] at hv ⊢
      rcases hv with (hv | hv) | hv
      · tauto
      · tauto
      · exact absurd hv hvo
    · rw [htouts2]; simp
    · have := h2.2
      simpa [Node.outs] using this
  · rw [seqDefs_substNodes, hdacc2]
    apply nodup_insert_two
    · have hsub : List.Sublist ((gins ++ seqDefs acc) ++ seqDefs rest)
          ((gins ++ seqDefs acc) ++ (([o] ++ blocksDefs bks) ++ seqDefs rest)) :=
        List.Sublist.append_left (List.sublist_append_right _ _) _
      simpa [List.append_assoc] using h3'.sublist hsub
    · intro hc
      have := h4 fresh (by rw [hdefs]; simp only [List.mem_append] at hc ⊢; tauto)
      omega
    · intro hc
      have := h4 (fresh + 1) (by rw [hdefs]; simp only [List.mem_append] at hc ⊢; tauto)
      omega
    · omega
  · intro v hv
    rw [seqDefs_substNodes, hdacc2] at hv
    simp only [List.mem_append, List.mem_singleton] at hv
    rcases hv with (hv | (hv | hv) | hv) | hv
    · have := h4 v (by simp [hv]); omega
    · have := h4 v (by rw [hdefs]; simp only [List.mem_append]; tauto); omega
    · omega
    · omega
    · have := h4 v (by rw [hdefs]; simp only [List.mem_append]; tauto); omega

/-- The all-`Zero` conditional collapse preserves the invariant: the fresh
`AutogradZero` output replaces every conditional output, the conditional
(with all its blocks) is dropped, and the visited prefix is untouched. -/
theorem ConfigOk_ifZero (gins : List Nat) (fresh : Nat) (acc : List Node)
    (cond : Nat) (ci os : List Nat) (bks : List (List Node × List Nat))
    (rest : List Node)
    (h : ConfigOk gins fresh acc (Node.mk .ifKind (cond :: ci) os bks :: rest)) :
    multiSubstNodes os fresh (acc ++ [Node.mk .autogradZero [] [fresh] []])
      = acc ++ [Node.mk .autogradZero [] [fresh] []] ∧
    ConfigOk gins (fresh + 1) (acc ++ [Node.mk .autogradZero [] [fresh] []])
      (multiSubstNodes os fresh rest) := by
  obtain ⟨h1, h2, h3, h4⟩ := h
  rw [seqOk_cons] at h2
  have hdefs : seqDefs (Node.mk .ifKind (cond :: ci) os bks :: rest)
      = (os ++ blocksDefs bks) ++ seqDefs rest := by
    simp [List.append_assoc]
  have h3' : ((gins ++ seqDefs acc) ++ ((os ++ blocksDefs bks) ++ seqDefs rest)).Nodup := by
    rw [hdefs] at h3
    simpa [List.append_assoc] using h3
  have hog : ∀ o ∈ os, o ∉ gins ++ seqDefs acc := by
    rw [List.nodup_append] at h3'
    intro o ho hvg
    exact (List.disjoint_left.mp h3'.2.2) hvg (by simp [ho])
  have hofr : ∀ o ∈ os, o < fresh := by
    intro o ho
    apply h4
    rw [hdefs]
    simp only [List.mem_append]
    tauto
  set zN := Node.mk .autogradZero [] [fresh] [] with hzN
  have hacc2 : seqOk gins (acc ++ [zN]) := by
    rw [seqOk_append]
    exact ⟨h1, by simp [hzN]⟩
  have hdacc2 : seqDefs (acc ++ [zN]) = seqDefs acc ++ [fresh] := by
    simp [seqDefs_append, hzN]
  have htouts2 : topOuts (acc ++ [zN]) = topOuts acc ++ [fresh] := by
    simp [topOuts_append, hzN, Node.outs]
  have haccid : multiSubstNodes os fresh (acc ++ [zN]) = acc ++ [zN] := by
    refine multiSubst_id gins os fresh _ hacc2 ?_ ?_
    · intro o ho hc
      exact hog o ho (by simp [hc])
    · intro o ho
      rw [hdacc2]
      simp only [List.mem_append, List.mem_singleton, not_or]
      refine ⟨fun hc => hog o ho (by simp [hc]), ?_⟩
      have := hofr o ho
      omega
  refine ⟨haccid, hacc2, ?_, ?_, ?_⟩
  · refine multiSubst_wf (gins ++ topOuts (acc ++ [zN])) os fresh rest ?_ ?_
    · rw [htouts2]; simp
    · refine seqOk_mono rest ((gins ++ topOuts acc) ++ os)
        ((gins ++ topOuts (acc ++ [zN])) ++ os) ?_ ?_
      · intro v hv
        rw [htouts2]
        simp only [List.mem_append, List.mem_singleton] at hv ⊢
        tauto
      · have := h2.2
        simpa [Node.outs, List.append_assoc] using this
  · rw [seqDefs_multiSubst, hdacc2]
    apply nodup_insert_one
    · have hsub : List.Sublist ((gins ++ seqDefs acc) ++ seqDefs rest)
          ((gins ++ seqDefs acc) ++ ((os ++ blocksDefs bks) ++ seqDefs rest)) :=
        List.Sublist.append_left (List.sublist_append_right _ _) _
      simpa [List.append_assoc] using h3'.sublist hsub
    · intro hc
      have := h4 fresh (by rw [hdefs]; simp only [List.mem_append] at hc ⊢; tauto)
      omega
  · intro v hv
    rw [seqDefs_multiSubst, hdacc2] at hv
    simp only [List.mem_append, List.mem_singleton] at hv
    rcases hv with (hv | hv | hv) | hv
    · have := h4 v (by simp [hv]); omega
    · have := h4 v (by rw [hdefs]; simp only [List.mem_append]; tauto); omega
    · omega
    · have := h4 v (by rw [hdefs]; simp only [List.mem_append]; tauto); omega

/-- The all-`Nonzero` conditional inlining preserves the invariant: the true
block's body is spliced in before where the conditional stood, each
conditional output is forwarded to the corresponding block output, and the
conditional (with its remaining blocks) is dropped. -/
theorem ConfigOk_ifHoist (gins : List Nat) (fresh : Nat) (acc : List Node)
    (cond : Nat) (ci os bouts : List Nat) (body : List Node)
    (bks : List (List Node × List Nat)) (rest : List Node)
    (st : StateMap) (gouts : List Nat)
    (hlen : os.length ≤ bouts.length)
    (h : ConfigOk gins fresh acc
      (Node.mk .ifKind (cond :: ci) os ((body, bouts) :: bks) :: rest)) :
    (inlineOuts os bouts st (acc ++ body) rest gouts).2.1 = acc ++ body ∧
    ConfigOk gins fresh (acc ++ body)
      (inlineOuts os bouts st (acc ++ body) rest gouts).2.2.1 := by
  obtain ⟨h1, h2, h3, h4⟩ := h
  rw [seqOk_cons] at h2
  have hblocks := (nodeOk_mk _ _ _ _ _ |>.mp h2.1).2
  rw [blocksOk_cons] at hblocks
  have hbody : seqOk (gins ++ topOuts acc) body := hblocks.1
  have hbouts : ∀ v ∈ bouts, v ∈ (gins ++ topOuts acc) ++ body.flatMap Node.outs :=
    hblocks.2.1
  have hdefs : seqDefs (Node.mk .ifKind (cond :: ci) os ((body, bouts) :: bks) :: rest)
      = (os ++ (seqDefs body ++ blocksDefs bks)) ++ seqDefs rest := by
    simp [List.append_assoc]
  have h3' : ((gins ++ seqDefs acc) ++
      ((os ++ (seqDefs body ++ blocksDefs bks)) ++ seqDefs rest)).Nodup := by
    rw [hdefs] at h3
    simpa [List.append_assoc] using h3
  have hog : ∀ o ∈ os, o ∉ gins ++ seqDefs acc := by
    rw [List.nodup_append] at h3'
    intro o ho hvg
    exact (List.disjoint_left.mp h3'.2.2) hvg (by simp [ho])
  have hobody : ∀ o ∈ os, o ∉ seqDefs body := by
    have hmid : (os ++ (seqDefs body ++ blocksDefs bks)).Nodup := by
      rw [List.nodup_append] at h3'
      have := h3'.2.1
      rw [List.nodup_append] at this
      exact this.1
    rw [List.nodup_append] at hmid
    intro o ho hc
    exact (List.disjoint_left.mp hmid.2.2) ho (by simp [hc])
  have hacc2 : seqOk gins (acc ++ body) := by
    rw [seqOk_append]
    exact ⟨h1, hbody⟩
  have hdacc2 : seqDefs (acc ++ body) = seqDefs acc ++ seqDefs body :=
    seqDefs_append acc body
  have htouts2 : topOuts (acc ++ body) = topOuts acc ++ topOuts body :=
    topOuts_append acc body
  have hmain := inlineOuts_main gins os bouts st (acc ++ body) rest gouts hacc2
    (fun o ho hc => hog o ho (by simp [hc]))
    (fun o ho => by
      rw [hdacc2]
      simp only [List.mem_append, not_or]
      exact ⟨fun hc => hog o ho (by simp [hc]), hobody o ho⟩)
    (fun w hw => by
      have := hbouts w hw
      rw [htouts2]
      simp only [List.mem_append, topOuts] at this ⊢
      tauto)
    hlen
    (by
      refine seqOk_mono rest ((gins ++ topOuts acc) ++ os)
        (gins ++ topOuts (acc ++ body) ++ os) ?_ ?_
      · intro v hv
        rw [htouts2]
        simp only [List.mem_append] at hv ⊢
        tauto
      · have := h2.2
        simpa [Node.outs, List.append_assoc] using this)
  refine ⟨hmain.1, hacc2, hmain.2.1, ?_, ?_⟩
  · rw [hmain.2.2, hdacc2]
    have hsub : List.Sublist
        ((gins ++ (seqDefs acc ++ seqDefs body)) ++ seqDefs rest)
        ((gins ++ seqDefs acc) ++
          ((os ++ (seqDefs body ++ blocksDefs bks)) ++ seqDefs rest)) := by
      have hs1 : List.Sublist (seqDefs body ++ seqDefs rest)
          ((os ++ (seqDefs body ++ blocksDefs bks)) ++ seqDefs rest) := by
        have ha : List.Sublist (seqDefs body ++ seqDefs rest)
            ((seqDefs body ++ blocksDefs bks) ++ seqDefs rest) := by
          rw [List.append_assoc]
          exact List.Sublist.append_left (List.sublist_append_right _ _) _
        have hb : List.Sublist ((seqDefs body ++ blocksDefs bks) ++ seqDefs rest)
            ((os ++ (seqDefs body ++ blocksDefs bks)) ++ seqDefs rest) :=
          List.Sublist.append_right (List.sublist_append_right _ _) _
        exact ha.trans hb
      have hc := List.Sublist.append_left hs1 (gins ++ seqDefs acc)
      rw [List.append_assoc] at hc ⊢
      simp only [List.append_assoc] at hc ⊢
      exact hc
    have hd := h3'.sublist hsub
    simpa [List.append_assoc] using hd
  · intro v hv
    rw [hmain.2.2, hdacc2] at hv
    apply h4
    rw [hdefs]
    simp only [List.mem_append] at hv ⊢
    tauto

/-- The traversal preserves the ordering invariant from any configuration:
if the already-passed prefix and the remaining work are well-ordered (with
unique definition sites, all below the fresh counter), then the node list
the pass returns is well-ordered. -/
theorem go_ordering (gins : List Nat) :
    ∀ (k : Nat) (work : List Node) (st : StateMap) (vt : TypeMap) (fresh : Nat)
      (acc : List Node) (gouts : List Nat) (r : PassResult),
      work.length ≤ k →
      go st vt fresh acc gouts work = some r →
      ConfigOk gins fresh acc work →
      seqOk gins r.nodes ∧ (gins ++ seqDefs r.nodes).Nodup ∧
        (∀ v ∈ gins ++ seqDefs r.nodes, v < r.fresh) := by
  intro k
  induction k with
  | zero =>
    intro work st vt fresh acc gouts r hlen hgo hcfg
    have hw : work = [] := List.eq_nil_of_length_eq_zero (Nat.le_zero.mp hlen)
    subst hw
    rw [go] at hgo
    cases hgo
    refine ⟨hcfg.1, ?_, ?_⟩
    · have h := hcfg.2.2.1
      simpa [List.append_assoc] using h
    · intro v hv
      apply hcfg.2.2.2
      simpa [List.append_assoc] using hv
  | succ k ih =>
    intro work st vt fresh acc gouts r hlen hgo hcfg
    cases work with
    | nil =>
      rw [go] at hgo
      cases hgo
      refine ⟨hcfg.1, ?_, ?_⟩
      · have h := hcfg.2.2.1
        simpa [List.append_assoc] using h
      · intro v hv
        apply hcfg.2.2.2
        simpa [List.append_assoc] using hv
    | cons n rest =>
      have hlen' : rest.length ≤ k := Nat.le_of_succ_le_succ hlen
      obtain ⟨nk, nins, nouts, nbks⟩ := n
      rw [go] at hgo
      simp only [Node.kind, Node.ins, Node.outs, Node.blocks] at hgo
      cases nk with
      | autogradAdd =>
        simp only [] at hgo
        rcases nins with _ | ⟨a, _ | ⟨b, extra⟩⟩
        · simp at hgo
        · simp at hgo
        rcases nouts with _ | ⟨o, _ | ⟨o2, os2⟩⟩
        · simp at hgo
        case cons.cons.cons => simp at hgo
        simp only [] at hgo
        have hvis := (nodeOk_mk _ _ _ _ _ |>.mp
          ((seqOk_cons _ _ _ |>.mp hcfg.2.1).1)).1
        split_ifs at hgo with hz1 hz2 hnz
        · have hfwd := ConfigOk_forward gins fresh acc .autogradAdd
            (a :: b :: extra) o nbks rest b (hvis b (by simp)) hcfg
          rw [hfwd.1] at hgo
          exact ih (substNodes o b rest) st vt fresh acc (substVals o b gouts) r
            (by simpa [substNodes] using hlen') hgo hfwd.2
        · have hfwd := ConfigOk_forward gins fresh acc .autogradAdd
            (a :: b :: extra) o nbks rest a (hvis a (by simp)) hcfg
          rw [hfwd.1] at hgo
          exact ih (substNodes o a rest) st vt fresh acc (substVals o a gouts) r
            (by simpa [substNodes] using hlen') hgo hfwd.2
        · have hbn := ConfigOk_bothNonzero gins fresh acc a b o extra nbks rest hcfg
          rw [hbn.1] at hgo
          exact ih (substNodes o (fresh + 1) rest) _ _ (fresh + 2) _ _ r
            (by simpa [substNodes] using hlen') hgo hbn.2
        · exact ih rest _ vt fresh _ gouts r hlen' hgo
            (ConfigOk_keep gins fresh acc _ rest hcfg)
      | autogradZero =>
        simp only [] at hgo
        rcases nouts with _ | ⟨o, _ | ⟨o2, os2⟩⟩
        · simp at hgo
        case cons.cons => simp at hgo
        simp only [] at hgo
        exact ih rest _ vt fresh _ gouts r hlen' hgo
          (ConfigOk_keep gins fresh acc _ rest hcfg)
      | profile =>
        simp only [] at hgo
        split_ifs at hgo with hp
        · rcases nouts with _ | ⟨o, _ | ⟨o2, os2⟩⟩
          · simp at hgo
          · simp only [] at hgo
            exact ih rest _ vt fresh _ gouts r hlen' hgo
              (ConfigOk_keep gins fresh acc _ rest hcfg)
          · simp at hgo
        · exact ih rest _ vt fresh _ gouts r hlen' hgo
            (ConfigOk_keep gins fresh acc _ rest hcfg)
      | bailOut =>
        simp only [] at hgo
        rcases nouts with _ | ⟨o, _ | ⟨o2, os2⟩⟩
        · simp at hgo
        case cons.cons => simp at hgo
        simp only [] at hgo
        rcases htp : lookupType vt o with u | _ | _ | _ <;> rw [htp] at hgo <;>
          simp only [] at hgo
        · exact ih rest _ vt fresh _ gouts r hlen' hgo
            (ConfigOk_keep gins fresh acc _ rest hcfg)
        · simp at hgo
        · simp at hgo
        · simp at hgo
      | guardKind =>
        simp only [] at hgo
        rcases nouts with _ | ⟨o, _ | ⟨o2, os2⟩⟩
        · simp at hgo
        case cons.cons => simp at hgo
        simp only [] at hgo
        rcases htp : lookupType vt o with u | _ | _ | _ <;> rw [htp] at hgo <;>
          simp only [] at hgo
        · exact ih rest _ vt fresh _ gouts r hlen' hgo
            (ConfigOk_keep gins fresh acc _ rest hcfg)
        · simp at hgo
        · simp at hgo
        · simp at hgo
      | ifKind =>
        simp only [] at hgo
        rcases nins with _ | ⟨cond, ci⟩
        · simp at hgo
        simp only [] at hgo
        rcases hdef : findDef (acc ++ Node.mk .ifKind (cond :: ci) nouts nbks :: rest) cond
          with _ | dn <;> rw [hdef] at hgo <;> simp only [] at hgo
        · exact ih rest _ vt fresh _ gouts r hlen' hgo
            (ConfigOk_keep gins fresh acc _ rest hcfg)
        · split_ifs at hgo with hk hz hnz
          · have hiz := ConfigOk_ifZero gins fresh acc cond ci nouts nbks rest hcfg
            rw [hiz.1] at hgo
            exact ih (multiSubstNodes nouts fresh rest) _ _ (fresh + 1) _ _ r
              (by simpa [multiSubstNodes_length] using hlen') hgo hiz.2
          · rcases nbks with _ | ⟨⟨body, bouts⟩, bks⟩
            · simp at hgo
            simp only [] at hgo
            split_ifs at hgo with hblen
            · have hih := ConfigOk_ifHoist gins fresh acc cond ci nouts bouts body
                bks rest st gouts hblen hcfg
              rw [hih.1] at hgo
              refine ih _ _ vt fresh _ _ r ?_ hgo hih.2
              rw [inlineOuts_rest_length]
              exact hlen'
          · exact ih rest _ vt fresh _ gouts r hlen' hgo
              (ConfigOk_keep gins fresh acc _ rest hcfg)
          · exact ih rest _ vt fresh _ gouts r hlen' hgo
              (ConfigOk_keep gins fresh acc _ rest hcfg)
      | anyNonZero =>
        simp only [] at hgo
        exact ih rest _ vt fresh _ gouts r hlen' hgo
          (ConfigOk_keep gins fresh acc _ rest hcfg)
      | atenAdd =>
        simp only [] at hgo
        exact ih rest _ vt fresh _ gouts r hlen' hgo
          (ConfigOk_keep gins fresh acc _ rest hcfg)
      | constant v =>
        simp only [] at hgo
        exact ih rest _ vt fresh _ gouts r hlen' hgo
          (ConfigOk_keep gins fresh acc _ rest hcfg)
      | other =>
        simp only [] at hgo
        exact ih rest _ vt fresh _ gouts r hlen' hgo
          (ConfigOk_keep gins fresh acc _ rest hcfg)

/-- C9: defs-precede-uses is preserved.  First conjunct: at EVERY traversal
configuration — i.e. after any prefix of the pass's mutations — if the
already-passed nodes and the remaining nodes are well-ordered (with unique
definition sites below the fresh counter, the embedding's rendering of the
C++ `Value*` object identity and of the fresh-id contract), then the node
list the pass returns is well-ordered: every remaining node's inputs are
defined earlier in program order.  Second conjunct: the graph-level
consequence for a full run of the pass. -/
theorem C9_ordering_preservation :
    (∀ (gins : List Nat) (work : List Node) (st : StateMap) (vt : TypeMap)
        (fresh : Nat) (acc : List Node) (gouts : List Nat) (r : PassResult),
        go st vt fresh acc gouts work = some r →
        ConfigOk gins fresh acc work →
        seqOk gins r.nodes) ∧
    (∀ (g g' : Graph), specializeAutogradZero g = some g' →
        seqOk g.inputs g.nodes →
        (g.inputs ++ seqDefs g.nodes).Nodup →
        (∀ v ∈ g.inputs ++ seqDefs g.nodes, v < g.fresh) →
        seqOk g.inputs g'.nodes) := by
  constructor
  · intro gins work st vt fresh acc gouts r hgo hcfg
    exact (go_ordering gins work.length work st vt fresh acc gouts r le_rfl hgo hcfg).1
  · intro g g' hpass h1 h2 h3
    unfold specializeAutogradZero at hpass
    cases hgo : go (initStates g) g.vtypes g.fresh [] g.outputs g.nodes with
    | none => rw [hgo] at hpass; cases hpass
    | some r =>
      rw [hgo] at hpass
      cases hpass
      refine (go_ordering g.inputs g.nodes.length g.nodes _ _ _ [] _ r le_rfl hgo
        ⟨seqOk_nil _, ?_, ?_, ?_⟩).1
      · simpa [topOuts] using h1
      · simpa using h2
      · simpa using h3

/-- C9 witness: the graph-level part applied to a concrete well-ordered
graph (an any-nonzero test over a `Zero` input guarding a conditional),
which the pass rewrites by the all-zero collapse. -/
theorem C9_ordering_preservation_witness :
    specializeAutogradZero
      { inputs := [0]
        nodes := [Node.mk .anyNonZero [0] [1] [],
                  Node.mk .ifKind [1] [2] [([], [0])]]
        outputs := [2]
        vtypes := [(0, JType.tensor (some true))]
        fresh := 10 } =
      some { inputs := [0]
             nodes := [Node.mk .anyNonZero [0] [1] [],
                       Node.mk .autogradZero [] [10] []]
             outputs := [10]
             vtypes := [(10, JType.tensor none), (0, JType.tensor (some true))]
             fresh := 11 } ∧
    seqOk [0] [Node.mk .anyNonZero [0] [1] [], Node.mk .autogradZero [] [10] []] := by
  have hpass : specializeAutogradZero
      { inputs := [0]
        nodes := [Node.mk .anyNonZero [0] [1] [],
                  Node.mk .ifKind [1] [2] [([], [0])]]
        outputs := [2]
        vtypes := [(0, JType.tensor (some true))]
        fresh := 10 } =
      some { inputs := [0]
             nodes := [Node.mk .anyNonZero [0] [1] [],
                       Node.mk .autogradZero [] [10] []]
             outputs := [10]
             vtypes := [(10, JType.tensor none), (0, JType.tensor (some true))]
             fresh := 11 } := by
    simp [specializeAutogradZero, go, initStates, setState, setAll, lookupState,
      lookupType, initClassify, findDef, Node.kind, Node.ins, Node.outs, Node.blocks,
      multiSubstNodes, multiSubstVals, substNodes, substVals, substV]
  refine ⟨hpass, ?_⟩
  have hres := C9_ordering_preservation.2
    { inputs := [0]
      nodes := [Node.mk .anyNonZero [0] [1] [],
                Node.mk .ifKind [1] [2] [([], [0])]]
      outputs := [2]
      vtypes := [(0, JType.tensor (some true))]
      fresh := 10 }
    { inputs := [0]
      nodes := [Node.mk .anyNonZero [0] [1] [],
                Node.mk .autogradZero [] [10] []]
      outputs := [10]
      vtypes := [(10, JType.tensor none), (0, JType.tensor (some true))]
      fresh := 11 }
    hpass
    (by simp [Node.outs, Node.ins])
    (by simp)
    (by simp)
  exact hres

/-! ### C8: idempotence machinery -/

theorem lookupType_cons (vt : TypeMap) (w v : Nat) (tp : JType) :
    lookupType ((w, tp) :: vt) v = if v = w then tp else lookupType vt v := by
  simp only [lookupType, List.find?]
  by_cases h : w = v
  · subst h; simp
  · have h' : ¬v = w := fun hv => h hv.symm
    simp [h, h']

/-- The traversal only raises the fresh counter, and only extends the type
table with entries at-or-above the incoming counter: every type annotation
of a pre-existing value is unchanged. -/
theorem go_vtypes_ext :
    ∀ (k : Nat) (work : List Node) (st : StateMap) (vt : TypeMap) (fresh : Nat)
      (acc : List Node) (gouts : List Nat) (r : PassResult),
      work.length ≤ k →
      go st vt fresh acc gouts work = some r →
      fresh ≤ r.fresh ∧ ∀ v, v < fresh → lookupType r.vtypes v = lookupType vt v := by
  intro k
  induction k with
  | zero =>
    intro work st vt fresh acc gouts r hlen hgo
    have hw : work = [] := List.eq_nil_of_length_eq_zero (Nat.le_zero.mp hlen)
    subst hw
    rw [go] at hgo
    cases hgo
    exact ⟨le_rfl, fun v _ => rfl⟩
  | succ k ih =>
    intro work st vt fresh acc gouts r hlen hgo
    cases work with
    | nil =>
      rw [go] at hgo
      cases hgo
      exact ⟨le_rfl, fun v _ => rfl⟩
    | cons n rest =>
      have hlen' : rest.length ≤ k := Nat.le_of_succ_le_succ hlen
      obtain ⟨nk, nins, nouts, nbks⟩ := n
      rw [go] at hgo
      simp only [Node.kind, Node.ins, Node.outs, Node.blocks] at hgo
      cases nk with
      | autogradAdd =>
        simp only [] at hgo
        rcases nins with _ | ⟨a, _ | ⟨b, extra⟩⟩
        · simp at hgo
        · simp at hgo
        rcases nouts with _ | ⟨o, _ | ⟨o2, os2⟩⟩
        · simp at hgo
        case cons.cons.cons => simp at hgo
        simp only [] at hgo
        split_ifs at hgo
        · exact ih _ _ _ _ _ _ r (by simpa [substNodes] using hlen') hgo
        · exact ih _ _ _ _ _ _ r (by simpa [substNodes] using hlen') hgo
        · have h := ih _ _ _ _ _ _ r (by simpa [substNodes] using hlen') hgo
          refine ⟨by omega, ?_⟩
          intro v hv
          rw [h.2 v (by omega), lookupType_cons, lookupType_cons]
          rw [if_neg (by omega), if_neg (by omega)]
        · exact ih _ _ _ _ _ _ r hlen' hgo
      | autogradZero =>
        simp only [] at hgo
        rcases nouts with _ | ⟨o, _ | ⟨o2, os2⟩⟩
        · simp at hgo
        case cons.cons => simp at hgo
        simp only [] at hgo
        exact ih _ _ _ _ _ _ r hlen' hgo
      | profile =>
        simp only [] at hgo
        split_ifs at hgo with hp
        · rcases nouts with _ | ⟨o, _ | ⟨o2, os2⟩⟩
          · simp at hgo
          · simp only [] at hgo
            exact ih _ _ _ _ _ _ r hlen' hgo
          · simp at hgo
        · exact ih _ _ _ _ _ _ r hlen' hgo
      | bailOut =>
        simp only [] at hgo
        rcases nouts with _ | ⟨o, _ | ⟨o2, os2⟩⟩
        · simp at hgo
        case cons.cons => simp at hgo
        simp only [] at hgo
        rcases htp : lookupType vt o with u | _ | _ | _ <;> rw [htp] at hgo <;>
          simp only [] at hgo
        · exact ih _ _ _ _ _ _ r hlen' hgo
        · simp at hgo
        · simp at hgo
        · simp at hgo
      | guardKind =>
        simp only [] at hgo
        rcases nouts with _ | ⟨o, _ | ⟨o2, os2⟩⟩
        · simp at hgo
        case cons.cons => simp at hgo
        simp only [] at hgo
        rcases htp : lookupType vt o with u | _ | _ | _ <;> rw [htp] at hgo <;>
          simp only [] at hgo
        · exact ih _ _ _ _ _ _ r hlen' hgo
        · simp at hgo
        · simp at hgo
        · simp at hgo
      | ifKind =>
        simp only [] at hgo
        rcases nins with _ | ⟨cond, ci⟩
        · simp at hgo
        simp only [] at hgo
        rcases hdef : findDef (acc ++ Node.mk .ifKind (cond :: ci) nouts nbks :: rest) cond
          with _ | dn <;> rw [hdef] at hgo <;> simp only [] at hgo
        · exact ih _ _ _ _ _ _ r hlen' hgo
        · split_ifs at hgo
          · have h := ih _ _ _ _ _ _ r
              (by simpa [multiSubstNodes_length] using hlen') hgo
            refine ⟨by omega, ?_⟩
            intro v hv
            rw [h.2 v (by omega), lookupType_cons, if_neg (by omega)]
          · rcases nbks with _ | ⟨⟨body, bouts⟩, bks⟩
            · simp at hgo
            simp only [] at hgo
            split_ifs at hgo
            · refine ih _ _ _ _ _ _ r ?_ hgo
              rw [inlineOuts_rest_length]
              exact hlen'
          · exact ih _ _ _ _ _ _ r hlen' hgo
          · exact ih _ _ _ _ _ _ r hlen' hgo
      | anyNonZero =>
        simp only [] at hgo
        exact ih _ _ _ _ _ _ r hlen' hgo
      | atenAdd =>
        simp only [] at hgo
        exact ih _ _ _ _ _ _ r hlen' hgo
      | constant v =>
        simp only [] at hgo
        exact ih _ _ _ _ _ _ r hlen' hgo
      | other =>
        simp only [] at hgo
        exact ih _ _ _ _ _ _ r hlen' hgo

theorem lookupState_setAll (vs : List Nat) (m : StateMap) (s : State) (v : Nat) :
    lookupState (setAll m vs s) v = if v ∈ vs then s else lookupState m v := by
  induction vs generalizing m with
  | nil => simp [setAll]
  | cons w ws ih =>
    have hstep : setAll m (w :: ws) s = setAll (setState m w s) ws s := rfl
    rw [hstep, ih, lookupState_setState]
    by_cases hr : v ∈ ws
    · simp [hr]
    · by_cases hw : v = w
      · subst hw; simp [hr]
      · simp [hr, hw]

theorem inlineOuts_state_lookup :
    ∀ (os ws : List Nat) (st : StateMap) (acc rest : List Node) (gouts : List Nat)
      (v : Nat), (∀ o ∈ os, o ∉ ws) →
      lookupState (inlineOuts os ws st acc rest gouts).1 v
        = if v ∈ ws.take os.length then State.Nonzero else lookupState st v := by
  intro os
  induction os with
  | nil => intro ws st acc rest gouts v _; cases ws <;> simp [inlineOuts]
  | cons o os ih =>
    intro ws st acc rest gouts v hdisj
    cases ws with
    | nil => simp [inlineOuts]
    | cons w ws =>
      rw [inlineOuts]
      have hwsid : ws.map (substV o w) = ws := by
        apply map_substV_id
        intro x hx hxo
        exact hdisj o (by simp) (by rw [← hxo]; simp [hx])
      rw [hwsid]
      rw [ih ws (setState st w State.Nonzero) _ _ _ v
        (fun o' ho' hc => hdisj o' (by simp [ho']) (by simp [hc]))]
      rw [lookupState_setState]
      by_cases hr : v ∈ ws.take os.length
      · simp [hr]
      · by_cases hw : v = w
        · subst hw; simp [hr]
        · simp [hr, hw]

theorem findDef_eq_none_iff (ns : List Node) (v : Nat) :
    findDef ns v = none ↔ v ∉ topOuts ns := by
  induction ns with
  | nil => simp [findDef]
  | cons n ns ih =>
    rw [findDef] at ih ⊢
    rw [List.find?]
    cases hx : n.outs.contains v with
    | true =>
      have hv : v ∈ n.outs := by simpa using hx
      simp only [topOuts_cons, List.mem_append]
      constructor
      · intro h; exact Option.noConfusion h
      · intro h; exact absurd (Or.inl hv) h
    | false =>
      have hv : v ∉ n.outs := by simpa using hx
      simp only []
      rw [ih]
      simp only [topOuts_cons, List.mem_append]
      constructor
      · intro h hc
        rcases hc with hc | hc
        · exact hv hc
        · exact h hc
      · intro h hc
        exact h (Or.inr hc)

theorem findDef_append_some (xs ys : List Node) (v : Nat) (dn : Node)
    (h : findDef xs v = some dn) : findDef (xs ++ ys) v = some dn := by
  induction xs with
  | nil => simp [findDef, List.find?] at h
  | cons x xs ih =>
    rw [findDef, List.find?] at h
    rw [findDef, List.cons_append, List.find?]
    cases hx : x.outs.contains v with
    | true =>
      rw [hx] at h
      simp only [] at h ⊢
      exact h
    | false =>
      rw [hx] at h
      simp only [] at h ⊢
      exact ih (by rw [findDef]; exact h)

/-- Operation kinds that the dispatcher's `switch` sends to the `default:`
label: visiting such a node never mutates the graph, whatever its shape. -/
def inert : NodeKind → Prop
  | .anyNonZero => True
  | .atenAdd => True
  | .constant _ => True
  | .other => True
  | _ => False

/-- The canonical-shape condition on conditional bodies: every block of
every node holds only `default:`-dispatched operations, and returns only
values its own body defines (a lowered `GradOf` whose body computes the
gradients it yields). -/
def Calm (work : List Node) : Prop :=
  ∀ n ∈ work, ∀ b ∈ n.blocks,
    (∀ m ∈ b.1, inert m.kind) ∧ (∀ w ∈ b.2, w ∈ topOuts b.1)

theorem Node.subst_kind (f t : Nat) (n : Node) : (Node.subst f t n).kind = n.kind := by
  cases n with
  | mk k i o bs => simp [Node.kind]

theorem blockDefs_of_mem (n : Node) (b : List Node × List Nat) (hb : b ∈ n.blocks) :
    ∀ v ∈ seqDefs b.1, v ∈ nodeDefs n := by
  cases n with
  | mk k i o bs =>
    simp only [Node.blocks] at hb
    intro v hv
    rw [nodeDefs_mk, List.mem_append]
    right
    induction bs with
    | nil => cases hb
    | cons c cs ih =>
      rcases List.mem_cons.mp hb with hc | hc
      · subst hc
        obtain ⟨c1, c2⟩ := b
        rw [blocksDefs_cons, List.mem_append]
        exact Or.inl hv
      · obtain ⟨c1, c2⟩ := c
        rw [blocksDefs_cons, List.mem_append]
        exact Or.inr (ih hc)

theorem nodeDefs_of_mem (ns : List Node) (n : Node) (hn : n ∈ ns) :
    ∀ v ∈ nodeDefs n, v ∈ seqDefs ns := by
  induction ns with
  | nil => cases hn
  | cons m ms ih =>
    intro v hv
    rw [seqDefs_cons, List.mem_append]
    rcases List.mem_cons.mp hn with hc | hc
    · subst hc; exact Or.inl hv
    · exact Or.inr (ih hc v hv)

/-- Substituting away a value that is not defined inside a node list keeps
the `Calm` condition. -/
theorem Calm_subst (o t : Nat) (ns : List Node) (hcalm : Calm ns)
    (ho : o ∉ seqDefs ns) : Calm (substNodes o t ns) := by
  intro n' hn' b' hb'
  rw [substNodes, List.mem_map] at hn'
  obtain ⟨n, hn, hsub⟩ := hn'
  subst hsub
  cases n with
  | mk k i os bs =>
    rw [Node.subst_mk] at hb'
    simp only [Node.blocks, List.mem_map] at hb'
    obtain ⟨b, hb, hsub⟩ := hb'
    subst hsub
    have hc := hcalm (Node.mk k i os bs) hn b (by simpa [Node.blocks] using hb)
    constructor
    · intro m' hm'
      simp only [List.mem_map] at hm'
      obtain ⟨m, hm, hsub⟩ := hm'
      subst hsub
      rw [Node.subst_kind]
      exact hc.1 m hm
    · intro w' hw'
      simp only [List.mem_map] at hw'
      obtain ⟨w, hw, hsub⟩ := hw'
      subst hsub
      have hwin := hc.2 w hw
      have hwdef : w ∈ seqDefs ns := by
        apply nodeDefs_of_mem ns _ hn
        apply blockDefs_of_mem _ b (by simpa [Node.blocks] using hb)
        exact topOuts_subset_seqDefs b.1 w (by simpa [topOuts] using hwin)
      have hwo : w ≠ o := fun hc' => ho (hc' ▸ hwdef)
      rw [substV, if_neg hwo]
      have hto : topOuts (b.1.map (Node.subst o t)) = topOuts b.1 := by
        have h := topOuts_substNodes o t b.1
        simpa [substNodes] using h
      rw [hto]
      exact hwin

theorem Calm_of_cons (n : Node) (ns : List Node) (h : Calm (n :: ns)) : Calm ns :=
  fun m hm => h m (by simp [hm])

theorem Calm_multiSubst (os : List Nat) (t : Nat) (ns : List Node) (hcalm : Calm ns)
    (ho : ∀ o ∈ os, o ∉ seqDefs ns) : Calm (multiSubstNodes os t ns) := by
  induction os generalizing ns with
  | nil => exact hcalm
  | cons o os ih =>
    have hstep : multiSubstNodes (o :: os) t ns = multiSubstNodes os t (substNodes o t ns) := rfl
    rw [hstep]
    refine ih (substNodes o t ns) (Calm_subst o t ns hcalm (ho o (by simp))) ?_
    intro o' ho'
    rw [seqDefs_substNodes]
    exact ho o' (by simp [ho'])

/-- The classification update performed by the dispatcher at a node it
leaves in place (the non-mutating branches of the `switch`). -/
def stepState (vt : TypeMap) (st : StateMap) : Node → StateMap
  | .mk .autogradAdd _ [o] _ => setState st o State.Unknown
  | .mk .autogradAdd _ _ _ => st
  | .mk .autogradZero _ [o] _ => setState st o State.Zero
  | .mk .autogradZero _ _ _ => st
  | .mk .profile i [o] _ => if i.length > 0 then setState st o State.Unknown else st
  | .mk .profile _ _ _ => st
  | .mk .bailOut _ [o] _ =>
      (match lookupType vt o with
       | .tensor u => setState st o (tstate u)
       | _ => st)
  | .mk .bailOut _ _ _ => st
  | .mk .guardKind _ [o] _ =>
      (match lookupType vt o with
       | .tensor u => setState st o (tstate u)
       | _ => st)
  | .mk .guardKind _ _ _ => st
  | .mk .ifKind _ os _ => setAll st os State.Unknown
  | .mk .anyNonZero _ os _ => setAll st os State.Unknown
  | .mk .atenAdd _ os _ => setAll st os State.Unknown
  | .mk (.constant _) _ os _ => setAll st os State.Unknown
  | .mk .other _ os _ => setAll st os State.Unknown

/-- The dispatcher, visiting this node with this classification map and
this full node list, takes a branch that neither mutates the graph nor
throws. -/
def NoMutStep (vt : TypeMap) (st : StateMap) (all : List Node) : Node → Prop
  | .mk .autogradAdd (a :: b :: _) [_] _ =>
      lookupState st a ≠ State.Zero ∧ lookupState st b ≠ State.Zero ∧
        ¬(lookupState st a = State.Nonzero ∧ lookupState st b = State.Nonzero)
  | .mk .autogradAdd _ _ _ => False
  | .mk .autogradZero _ [_] _ => True
  | .mk .autogradZero _ _ _ => False
  | .mk .profile _ [_] _ => True
  | .mk .profile i _ _ => i = []
  | .mk .bailOut _ [o] _ => ∃ u, lookupType vt o = JType.tensor u
  | .mk .bailOut _ _ _ => False
  | .mk .guardKind _ [o] _ => ∃ u, lookupType vt o = JType.tensor u
  | .mk .guardKind _ _ _ => False
  | .mk .ifKind (c :: _) _ _ =>
      findDef all c = none ∨
      ∃ dn, findDef all c = some dn ∧
        (¬dn.kind = NodeKind.anyNonZero ∨
          (¬(∀ v ∈ dn.ins, lookupState st v = State.Zero) ∧
           ¬(∀ v ∈ dn.ins, lookupState st v = State.Nonzero)))
  | .mk .ifKind [] _ _ => False
  | .mk .anyNonZero _ _ _ => True
  | .mk .atenAdd _ _ _ => True
  | .mk (.constant _) _ _ _ => True
  | .mk .other _ _ _ => True

/-- Every node of `work`, visited in order after the prefix `acc`, is
dispatched to a non-mutating branch. -/
def NoMut (vt : TypeMap) : StateMap → List Node → List Node → Prop
  | _, _, [] => True
  | st, acc, n :: rest =>
      NoMutStep vt st (acc ++ n :: rest) n ∧
      NoMut vt (stepState vt st n) (acc ++ [n]) rest

/-- A traversal in which every node is dispatched to a non-mutating branch
returns the node list, the graph outputs, the type table and the fresh
counter unchanged. -/
theorem NoMut_sound (vt : TypeMap) :
    ∀ (work : List Node) (st : StateMap) (fresh : Nat) (acc : List Node)
      (gouts : List Nat), NoMut vt st acc work →
      ∃ stf, go st vt fresh acc gouts work = some ⟨acc ++ work, gouts, vt, fresh, stf⟩ := by
  intro work
  induction work with
  | nil =>
    intro st fresh acc gouts _
    exact ⟨st, by rw [go]; simp⟩
  | cons n rest ih =>
    intro st fresh acc gouts hnm
    rw [NoMut] at hnm
    obtain ⟨hstep, hrest⟩ := hnm
    obtain ⟨nk, nins, nouts, nbks⟩ := n
    rw [go]
    simp only [Node.kind, Node.ins, Node.outs, Node.blocks]
    have hfix : ∀ (m : Node), (acc ++ [m]) ++ rest = acc ++ m :: rest := by
      intro m; simp
    cases nk with
    | autogradAdd =>
      rcases nins with _ | ⟨a, _ | ⟨b, extra⟩⟩
      · rcases nouts with _ | ⟨o, _ | ⟨o2, os2⟩⟩ <;> simp only [NoMutStep] at hstep
      · rcases nouts with _ | ⟨o, _ | ⟨o2, os2⟩⟩ <;> simp only [NoMutStep] at hstep
      rcases nouts with _ | ⟨o, _ | ⟨o2, os2⟩⟩
      · simp only [NoMutStep] at hstep
      case cons.cons.cons => simp only [NoMutStep] at hstep
      simp only [NoMutStep] at hstep
      simp only []
      rw [if_neg hstep.1, if_neg hstep.2.1, if_neg hstep.2.2]
      obtain ⟨stf, heq⟩ := ih (stepState vt st
        (Node.mk .autogradAdd (a :: b :: extra) [o] nbks)) fresh
        (acc ++ [Node.mk .autogradAdd (a :: b :: extra) [o] nbks]) gouts hrest
      refine ⟨stf, ?_⟩
      rw [show stepState vt st (Node.mk .autogradAdd (a :: b :: extra) [o] nbks)
        = setState st o State.Unknown from rfl] at heq
      rw [heq, hfix]
    | autogradZero =>
      rcases nouts with _ | ⟨o, _ | ⟨o2, os2⟩⟩
      · simp only [NoMutStep] at hstep
      case cons.cons => simp only [NoMutStep] at hstep
      simp only []
      obtain ⟨stf, heq⟩ := ih (stepState vt st
        (Node.mk .autogradZero nins [o] nbks)) fresh
        (acc ++ [Node.mk .autogradZero nins [o] nbks]) gouts hrest
      refine ⟨stf, ?_⟩
      rw [show stepState vt st (Node.mk .autogradZero nins [o] nbks)
        = setState st o State.Zero from rfl] at heq
      rw [heq, hfix]
    | profile =>
      simp only []
      rcases nouts with _ | ⟨o, _ | ⟨o2, os2⟩⟩
      · simp only [NoMutStep] at hstep
        subst hstep
        rw [if_neg (by simp)]
        obtain ⟨stf, heq⟩ := ih (stepState vt st (Node.mk .profile [] [] nbks)) fresh
          (acc ++ [Node.mk .profile [] [] nbks]) gouts hrest
        refine ⟨stf, ?_⟩
        rw [show stepState vt st (Node.mk .profile [] [] nbks) = st from rfl] at heq
        rw [heq, hfix]
      · by_cases hp : nins.length > 0
        · rw [if_pos hp]
          simp only []
          obtain ⟨stf, heq⟩ := ih (stepState vt st (Node.mk .profile nins [o] nbks)) fresh
            (acc ++ [Node.mk .profile nins [o] nbks]) gouts hrest
          refine ⟨stf, ?_⟩
          rw [show stepState vt st (Node.mk .profile nins [o] nbks)
            = if nins.length > 0 then setState st o State.Unknown else st from rfl,
            if_pos hp] at heq
          rw [heq, hfix]
        · rw [if_neg hp]
          obtain ⟨stf, heq⟩ := ih (stepState vt st (Node.mk .profile nins [o] nbks)) fresh
            (acc ++ [Node.mk .profile nins [o] nbks]) gouts hrest
          refine ⟨stf, ?_⟩
          rw [show stepState vt st (Node.mk .profile nins [o] nbks)
            = if nins.length > 0 then setState st o State.Unknown else st from rfl,
            if_neg hp] at heq
          rw [heq, hfix]
      · simp only [NoMutStep] at hstep
        subst hstep
        rw [if_neg (by simp)]
        obtain ⟨stf, heq⟩ := ih (stepState vt st
          (Node.mk .profile [] (o :: o2 :: os2) nbks)) fresh
          (acc ++ [Node.mk .profile [] (o :: o2 :: os2) nbks]) gouts hrest
        refine ⟨stf, ?_⟩
        rw [show stepState vt st (Node.mk .profile [] (o :: o2 :: os2) nbks)
          = st from rfl] at heq
        rw [heq, hfix]
    | bailOut =>
      rcases nouts with _ | ⟨o, _ | ⟨o2, os2⟩⟩
      · simp only [NoMutStep] at hstep
      case cons.cons => simp only [NoMutStep] at hstep
      simp only [NoMutStep] at hstep
      obtain ⟨u, hu⟩ := hstep
      simp only []
      rw [hu]
      simp only []
      obtain ⟨stf, heq⟩ := ih (stepState vt st (Node.mk .bailOut nins [o] nbks)) fresh
        (acc ++ [Node.mk .bailOut nins [o] nbks]) gouts hrest
      refine ⟨stf, ?_⟩
      rw [show stepState vt st (Node.mk .bailOut nins [o] nbks)
        = (match lookupType vt o with
           | .tensor u => setState st o (tstate u)
           | _ => st) from rfl, hu] at heq
      rw [hfix] at heq
      simp only [] at heq
      exact heq
    | guardKind =>
      rcases nouts with _ | ⟨o, _ | ⟨o2, os2⟩⟩
      · simp only [NoMutStep] at hstep
      case cons.cons => simp only [NoMutStep] at hstep
      simp only [NoMutStep] at hstep
      obtain ⟨u, hu⟩ := hstep
      simp only []
      rw [hu]
      simp only []
      obtain ⟨stf, heq⟩ := ih (stepState vt st (Node.mk .guardKind nins [o] nbks)) fresh
        (acc ++ [Node.mk .guardKind nins [o] nbks]) gouts hrest
      refine ⟨stf, ?_⟩
      rw [show stepState vt st (Node.mk .guardKind nins [o] nbks)
        = (match lookupType vt o with
           | .tensor u => setState st o (tstate u)
           | _ => st) from rfl, hu] at heq
      rw [hfix] at heq
      simp only [] at heq
      exact heq
    | ifKind =>
      rcases nins with _ | ⟨c, ci⟩
      · simp only [NoMutStep] at hstep
      simp only [NoMutStep] at hstep
      simp only []
      obtain ⟨stf, heq⟩ := ih (stepState vt st
        (Node.mk .ifKind (c :: ci) nouts nbks)) fresh
        (acc ++ [Node.mk .ifKind (c :: ci) nouts nbks]) gouts hrest
      have hstepeq : stepState vt st (Node.mk .ifKind (c :: ci) nouts nbks)
          = setAll st nouts State.Unknown := rfl
      rw [hstepeq] at heq
      rw [hfix] at heq
      rcases hstep with hnone | ⟨dn, hdn, hcond⟩
      · rw [hnone]
        exact ⟨stf, heq⟩
      · obtain ⟨dk, di, dO, dB⟩ := dn
        rw [hdn]
        simp only [Node.kind, Node.ins] at hcond ⊢
        by_cases hk : dk = NodeKind.anyNonZero
        · rcases hcond with hcond | ⟨hz, hnz⟩
          · exact absurd hk hcond
          · rw [if_pos hk, if_neg hz, if_neg hnz]
            exact ⟨stf, heq⟩
        · rw [if_neg hk]
          exact ⟨stf, heq⟩
    | anyNonZero =>
      simp only []
      obtain ⟨stf, heq⟩ := ih (setAll st nouts State.Unknown) fresh
        (acc ++ [Node.mk .anyNonZero nins nouts nbks]) gouts
        (by
          have : stepState vt st (Node.mk .anyNonZero nins nouts nbks)
            = setAll st nouts State.Unknown := rfl
          rw [← this]; exact hrest)
      exact ⟨stf, by rw [heq, hfix]⟩
    | atenAdd =>
      simp only []
      obtain ⟨stf, heq⟩ := ih (setAll st nouts State.Unknown) fresh
        (acc ++ [Node.mk .atenAdd nins nouts nbks]) gouts
        (by
          have : stepState vt st (Node.mk .atenAdd nins nouts nbks)
            = setAll st nouts State.Unknown := rfl
          rw [← this]; exact hrest)
      exact ⟨stf, by rw [heq, hfix]⟩
    | constant cv =>
      simp only []
      obtain ⟨stf, heq⟩ := ih (setAll st nouts State.Unknown) fresh
        (acc ++ [Node.mk (.constant cv) nins nouts nbks]) gouts
        (by
          have : stepState vt st (Node.mk (.constant cv) nins nouts nbks)
            = setAll st nouts State.Unknown := rfl
          rw [← this]; exact hrest)
      exact ⟨stf, by rw [heq, hfix]⟩
    | other =>
      simp only []
      obtain ⟨stf, heq⟩ := ih (setAll st nouts State.Unknown) fresh
        (acc ++ [Node.mk .other nins nouts nbks]) gouts
        (by
          have : stepState vt st (Node.mk .other nins nouts nbks)
            = setAll st nouts State.Unknown := rfl
          rw [← this]; exact hrest)
      exact ⟨stf, by rw [heq, hfix]⟩

theorem findDef_some_mem (ns : List Node) (v : Nat) (dn : Node)
    (h : findDef ns v = some dn) : dn ∈ ns ∧ v ∈ dn.outs := by
  constructor
  · exact List.mem_of_find?_eq_some h
  · have hp := List.find?_some h
    simpa using hp

theorem stepState_inert (vt : TypeMap) (st : StateMap) (m : Node)
    (h : inert m.kind) : stepState vt st m = setAll st m.outs State.Unknown := by
  obtain ⟨k, i, o, bs⟩ := m
  cases k <;> simp only [inert, Node.kind] at h <;> rfl

theorem NoMutStep_inert (vt : TypeMap) (st : StateMap) (all : List Node) (m : Node)
    (h : inert m.kind) : NoMutStep vt st all m := by
  obtain ⟨k, i, o, bs⟩ := m
  cases k <;> simp only [inert, Node.kind] at h <;> exact trivial

theorem foldl_stepState_inert (vt : TypeMap) :
    ∀ (body : List Node) (st : StateMap) (v : Nat),
      (∀ m ∈ body, inert m.kind) →
      lookupState (body.foldl (stepState vt) st) v
        = if v ∈ topOuts body then State.Unknown else lookupState st v := by
  intro body
  induction body with
  | nil => intro st v _; simp
  | cons m body ih =>
    intro st v hin
    rw [List.foldl_cons, stepState_inert vt st m (hin m (by simp)),
      ih _ v (fun m' hm' => hin m' (by simp [hm'])), topOuts_cons]
    by_cases hb : v ∈ topOuts body
    · simp [hb]
    · rw [lookupState_setAll]
      by_cases hm : v ∈ m.outs
      · simp [hb, hm]
      · simp [hb, hm]

theorem NoMut_append_inert (vt : TypeMap) :
    ∀ (body : List Node) (st : StateMap) (acc tl : List Node),
      (∀ m ∈ body, inert m.kind) →
      NoMut vt (body.foldl (stepState vt) st) (acc ++ body) tl →
      NoMut vt st acc (body ++ tl) := by
  intro body
  induction body with
  | nil =>
    intro st acc tl _ h
    simpa using h
  | cons m body ih =>
    intro st acc tl hin h
    rw [List.cons_append, NoMut]
    refine ⟨NoMutStep_inert vt st _ m (hin m (by simp)), ?_⟩
    refine ih (stepState vt st m) (acc ++ [m]) tl
      (fun m' hm' => hin m' (by simp [hm'])) ?_
    rw [List.foldl_cons] at h
    have hl : (acc ++ [m]) ++ body = acc ++ m :: body := by simp
    rw [hl]
    exact h

theorem Calm_inlineOuts :
    ∀ (os ws : List Nat) (st : StateMap) (acc rest : List Node) (gouts : List Nat),
      Calm rest → (∀ o ∈ os, o ∉ seqDefs rest) →
      Calm ((inlineOuts os ws st acc rest gouts).2.2.1) := by
  intro os
  induction os with
  | nil => intro ws st acc rest gouts h _; cases ws <;> simpa [inlineOuts] using h
  | cons o os ih =>
    intro ws st acc rest gouts h ho
    cases ws with
    | nil => simpa [inlineOuts] using h
    | cons w ws =>
      rw [inlineOuts]
      refine ih _ _ _ _ _ (Calm_subst o w rest h (ho o (by simp))) ?_
      intro o' ho'
      rw [seqDefs_substNodes]
      exact ho o' (by simp [ho'])

/-- Simulation between the second run's classification map and the first
run's: a value the second run classifies `Zero` (resp. `Nonzero`) was
classified `Zero` (resp. `Nonzero`) by the first run.  (`Unknown` gives no
obligation.) -/
def StateLe (st2 st1 : StateMap) : Prop :=
  ∀ v, (lookupState st2 v = State.Zero → lookupState st1 v = State.Zero) ∧
       (lookupState st2 v = State.Nonzero → lookupState st1 v = State.Nonzero)

theorem StateLe_setState_same (st2 st1 : StateMap) (h : StateLe st2 st1)
    (w : Nat) (s : State) : StateLe (setState st2 w s) (setState st1 w s) := by
  intro v
  by_cases hvw : v = w
  · subst hvw
    constructor <;> intro hv <;> rw [lookupState_setState, if_pos rfl] at hv ⊢ <;> exact hv
  · constructor <;> intro hv <;> rw [lookupState_setState, if_neg hvw] at hv ⊢
    · exact (h v).1 hv
    · exact (h v).2 hv

theorem StateLe_setAll_same (st2 st1 : StateMap) (h : StateLe st2 st1)
    (vs : List Nat) (s : State) : StateLe (setAll st2 vs s) (setAll st1 vs s) := by
  intro v
  by_cases hvw : v ∈ vs
  · constructor <;> intro hv <;> rw [lookupState_setAll, if_pos hvw] at hv ⊢ <;> exact hv
  · constructor <;> intro hv <;> rw [lookupState_setAll, if_neg hvw] at hv ⊢
    · exact (h v).1 hv
    · exact (h v).2 hv

/-- `Unknown`-writes on the second-run side never break the simulation. -/
theorem StateLe_set2_unknown (st2 st1 : StateMap) (h : StateLe st2 st1)
    (w : Nat) : StateLe (setState st2 w State.Unknown) st1 := by
  intro v
  by_cases hvw : v = w
  · subst hvw
    constructor <;> intro hv <;> rw [lookupState_setState, if_pos rfl] at hv <;>
      exact absurd hv (by simp)
  · constructor <;> intro hv <;> rw [lookupState_setState, if_neg hvw] at hv
    · exact (h v).1 hv
    · exact (h v).2 hv

theorem StateLe_setAll2_unknown (st2 st1 : StateMap) (h : StateLe st2 st1)
    (vs : List Nat) : StateLe (setAll st2 vs State.Unknown) st1 := by
  intro v
  by_cases hvw : v ∈ vs
  · constructor <;> intro hv <;> rw [lookupState_setAll, if_pos hvw] at hv <;>
      exact absurd hv (by simp)
  · constructor <;> intro hv <;> rw [lookupState_setAll, if_neg hvw] at hv
    · exact (h v).1 hv
    · exact (h v).2 hv

/-- First-run writes at keys the second run maps to `Unknown` (or never
reads back as `Zero`/`Nonzero`) never break the simulation. -/
theorem StateLe_set1_any (st2 st1 : StateMap) (h : StateLe st2 st1)
    (w : Nat) (s : State) (hw2 : lookupState st2 w ≠ State.Zero ∧
      lookupState st2 w ≠ State.Nonzero) :
    StateLe st2 (setState st1 w s) := by
  intro v
  by_cases hvw : v = w
  · subst hvw
    constructor <;> intro hv
    · exact absurd hv hw2.1
    · exact absurd hv hw2.2
  · constructor <;> intro hv <;> rw [lookupState_setState, if_neg hvw]
    · exact (h v).1 hv
    · exact (h v).2 hv

theorem ConfigOk_head_facts (gins : List Nat) (fresh : Nat) (acc : List Node)
    (n : Node) (rest : List Node) (h : ConfigOk gins fresh acc (n :: rest)) :
    (∀ o ∈ nodeDefs n, o ∉ gins) ∧ (∀ o ∈ nodeDefs n, o ∉ seqDefs acc) ∧
    (∀ o ∈ nodeDefs n, o ∉ seqDefs rest) ∧ (nodeDefs n).Nodup := by
  have h3 := h.2.2.1
  rw [seqDefs_cons] at h3
  rw [List.nodup_append] at h3
  obtain ⟨h12, h34, hdisj⟩ := h3
  rw [List.nodup_append] at h34
  obtain ⟨hdn, hdr, hdisj2⟩ := h34
  refine ⟨?_, ?_, ?_, hdn⟩
  · intro o ho hc
    exact hdisj (List.mem_append.mpr (Or.inl hc)) (List.mem_append.mpr (Or.inl ho))
  · intro o ho hc
    exact hdisj (List.mem_append.mpr (Or.inr hc)) (List.mem_append.mpr (Or.inl ho))
  · intro o ho hc
    exact hdisj2 ho hc

theorem ConfigOk_head_ins (gins : List Nat) (fresh : Nat) (acc : List Node)
    (n : Node) (rest : List Node) (h : ConfigOk gins fresh acc (n :: rest)) :
    ∀ v ∈ n.ins, v ∈ gins ++ topOuts acc := by
  have h2 := (seqOk_cons _ _ _ |>.mp h.2.1).1
  obtain ⟨k, i, o, bs⟩ := n
  exact (nodeOk_mk _ _ _ _ _ |>.mp h2).1

set_option maxHeartbeats 1000000

/-- Stability of the first run's output: from any configuration whose
remaining work is well-formed (`ConfigOk`) and canonical (`Calm`), and any
second-run classification map simulating the first run's (`StateLe`), the
nodes the first run emits from here on are all dispatched to non-mutating
branches by the second run. -/
theorem go_stable (gins : List Nat) :
    ∀ (k : Nat) (work : List Node) (st1 : StateMap) (vt : TypeMap) (fresh : Nat)
      (acc : List Node) (gouts : List Nat) (r : PassResult) (st2 : StateMap),
      work.length ≤ k →
      go st1 vt fresh acc gouts work = some r →
      ConfigOk gins fresh acc work →
      Calm work →
      StateLe st2 st1 →
      ∃ tl, r.nodes = acc ++ tl ∧ NoMut r.vtypes st2 acc tl := by
  intro k
  induction k with
  | zero =>
    intro work st1 vt fresh acc gouts r st2 hlen hgo hcfg hcalm hle
    have hw : work = [] := List.eq_nil_of_length_eq_zero (Nat.le_zero.mp hlen)
    subst hw
    rw [go] at hgo
    cases hgo
    exact ⟨[], by simp, by rw [NoMut]; trivial⟩
  | succ k ih =>
    intro work st1 vt fresh acc gouts r st2 hlen hgo hcfg hcalm hle
    cases work with
    | nil =>
      rw [go] at hgo
      cases hgo
      exact ⟨[], by simp, by rw [NoMut]; trivial⟩
    | cons n rest =>
      have hlen' : rest.length ≤ k := Nat.le_of_succ_le_succ hlen
      obtain ⟨nk, nins, nouts, nbks⟩ := n
      have hgo0 := hgo
      have hfacts := ConfigOk_head_facts gins fresh acc _ rest hcfg
      have hvis := ConfigOk_head_ins gins fresh acc _ rest hcfg
      simp only [Node.ins] at hvis
      have hcalm' := Calm_of_cons _ _ hcalm
      rw [go] at hgo
      simp only [Node.kind, Node.ins, Node.outs, Node.blocks] at hgo
      cases nk with
      | autogradAdd =>
        simp only [] at hgo
        rcases nins with _ | ⟨a, _ | ⟨b, extra⟩⟩
        · simp at hgo
        · simp at hgo
        rcases nouts with _ | ⟨o, _ | ⟨o2, os2⟩⟩
        · simp at hgo
        case cons.cons.cons => simp at hgo
        simp only [] at hgo
        have ho_rest : o ∉ seqDefs rest := by
          apply hfacts.2.2.1
          simp
        split_ifs at hgo with hz1 hz2 hnz
        · have hfwd := ConfigOk_forward gins fresh acc .autogradAdd
            (a :: b :: extra) o nbks rest b (hvis b (by simp)) hcfg
          rw [hfwd.1] at hgo
          exact ih (substNodes o b rest) st1 vt fresh acc (substVals o b gouts) r st2
            (by simpa [substNodes] using hlen') hgo hfwd.2
            (Calm_subst o b rest hcalm' ho_rest) hle
        · have hfwd := ConfigOk_forward gins fresh acc .autogradAdd
            (a :: b :: extra) o nbks rest a (hvis a (by simp)) hcfg
          rw [hfwd.1] at hgo
          exact ih (substNodes o a rest) st1 vt fresh acc (substVals o a gouts) r st2
            (by simpa [substNodes] using hlen') hgo hfwd.2
            (Calm_subst o a rest hcalm' ho_rest) hle
        · -- both-Nonzero: the run inserts the constant and the plain add
          have hbn := ConfigOk_bothNonzero gins fresh acc a b o extra nbks rest hcfg
          rw [hbn.1] at hgo
          set constN := Node.mk (.constant 1) [] [fresh] [] with hcN
          set addN := Node.mk .atenAdd [a, b, fresh] [fresh + 1] [] with haN
          have hinert : ∀ m ∈ [constN, addN], inert m.kind := by
            intro m hm
            rcases List.mem_cons.mp hm with hm | hm
            · rw [hm, hcN]; exact trivial
            · rcases List.mem_cons.mp hm with hm | hm
              · rw [hm, haN]; exact trivial
              · cases hm
          set st2' := [constN, addN].foldl (stepState r.vtypes) st2 with hst2'
          have hle' : StateLe st2' (setState st1 (fresh + 1) State.Nonzero) := by
            intro v
            rw [hst2']
            rw [foldl_stepState_inert r.vtypes [constN, addN] st2 v hinert]
            by_cases hv2 : v ∈ topOuts [constN, addN]
            · rw [if_pos hv2]
              constructor <;> intro hc <;> exact absurd hc (by simp)
            · rw [if_neg hv2]
              have hvf : v ≠ fresh + 1 := by
                intro hc
                apply hv2
                rw [hc, hcN, haN]
                simp [Node.outs]
              constructor <;> intro hc <;> rw [lookupState_setState, if_neg hvf]
              · exact (hle v).1 hc
              · exact (hle v).2 hc
          obtain ⟨tl, hnodes, hnm⟩ := ih (substNodes o (fresh + 1) rest)
            (setState st1 (fresh + 1) State.Nonzero)
            ((fresh + 1, lookupType vt o) :: (fresh, JType.other) :: vt) (fresh + 2)
            (acc ++ [constN, addN]) (substVals o (fresh + 1) gouts) r st2'
            (by simpa [substNodes] using hlen') hgo hbn.2
            (Calm_subst o (fresh + 1) rest hcalm' ho_rest) hle'
          refine ⟨constN :: addN :: tl, by rw [hnodes]; simp, ?_⟩
          have := NoMut_append_inert r.vtypes [constN, addN] st2 acc tl hinert
            (by rw [← hst2']; exact hnm)
          simpa using this
        · -- mixed: the node is kept and both runs mark its output Unknown
          obtain ⟨tl, hnodes, hnm⟩ := ih rest (setState st1 o State.Unknown) vt fresh
            (acc ++ [Node.mk .autogradAdd (a :: b :: extra) [o] nbks]) gouts r
            (setState st2 o State.Unknown) hlen' hgo
            (ConfigOk_keep gins fresh acc _ rest hcfg) hcalm'
            (StateLe_setState_same st2 st1 hle o State.Unknown)
          refine ⟨Node.mk .autogradAdd (a :: b :: extra) [o] nbks :: tl,
            by rw [hnodes]; simp, ?_⟩
          rw [NoMut]
          constructor
          · simp only [NoMutStep]
            refine ⟨fun hc => hz1 ((hle a).1 hc), fun hc => hz2 ((hle b).1 hc), ?_⟩
            rintro ⟨ha, hb⟩
            exact hnz ⟨(hle a).2 ha, (hle b).2 hb⟩
          · have hss : stepState r.vtypes st2
                (Node.mk .autogradAdd (a :: b :: extra) [o] nbks)
                = setState st2 o State.Unknown := rfl
            rw [hss]
            exact hnm
      | autogradZero =>
        simp only [] at hgo
        rcases nouts with _ | ⟨o, _ | ⟨o2, os2⟩⟩
        · simp at hgo
        case cons.cons => simp at hgo
        simp only [] at hgo
        obtain ⟨tl, hnodes, hnm⟩ := ih rest (setState st1 o State.Zero) vt fresh
          (acc ++ [Node.mk .autogradZero nins [o] nbks]) gouts r
          (setState st2 o State.Zero) hlen' hgo
          (ConfigOk_keep gins fresh acc _ rest hcfg) hcalm'
          (StateLe_setState_same st2 st1 hle o State.Zero)
        refine ⟨Node.mk .autogradZero nins [o] nbks :: tl, by rw [hnodes]; simp, ?_⟩
        rw [NoMut]
        exact ⟨trivial, hnm⟩
      | profile =>
        simp only [] at hgo
        split_ifs at hgo with hp
        · rcases nouts with _ | ⟨o, _ | ⟨o2, os2⟩⟩
          · simp at hgo
          · simp only [] at hgo
            obtain ⟨tl, hnodes, hnm⟩ := ih rest (setState st1 o State.Unknown) vt fresh
              (acc ++ [Node.mk .profile nins [o] nbks]) gouts r
              (setState st2 o State.Unknown) hlen' hgo
              (ConfigOk_keep gins fresh acc _ rest hcfg) hcalm'
              (StateLe_setState_same st2 st1 hle o State.Unknown)
            refine ⟨Node.mk .profile nins [o] nbks :: tl, by rw [hnodes]; simp, ?_⟩
            rw [NoMut]
            constructor
            · exact trivial
            · have hss : stepState r.vtypes st2 (Node.mk .profile nins [o] nbks)
                  = setState st2 o State.Unknown := by
                rw [show stepState r.vtypes st2 (Node.mk .profile nins [o] nbks)
                  = if nins.length > 0 then setState st2 o State.Unknown else st2
                  from rfl, if_pos hp]
              rw [hss]
              exact hnm
          · simp at hgo
        · obtain ⟨tl, hnodes, hnm⟩ := ih rest st1 vt fresh
            (acc ++ [Node.mk .profile nins nouts nbks]) gouts r st2 hlen' hgo
            (ConfigOk_keep gins fresh acc _ rest hcfg) hcalm' hle
          have hni : nins = [] := List.eq_nil_of_length_eq_zero (by omega)
          subst hni
          refine ⟨Node.mk .profile [] nouts nbks :: tl, by rw [hnodes]; simp, ?_⟩
          rw [NoMut]
          constructor
          · rcases nouts with _ | ⟨o, _ | ⟨o2, os2⟩⟩
            · simp only [NoMutStep]
            · exact trivial
            · simp only [NoMutStep]
          · have hss : stepState r.vtypes st2 (Node.mk .profile [] nouts nbks) = st2 := by
              rcases nouts with _ | ⟨o, _ | ⟨o2, os2⟩⟩
              · rfl
              · rw [show stepState r.vtypes st2 (Node.mk .profile [] [o] nbks)
                  = if ([] : List Nat).length > 0 then setState st2 o State.Unknown else st2
                  from rfl]
                simp
              · rfl
            rw [hss]
            exact hnm
      | bailOut =>
        simp only [] at hgo
        rcases nouts with _ | ⟨o, _ | ⟨o2, os2⟩⟩
        · simp at hgo
        case cons.cons => simp at hgo
        simp only [] at hgo
        rcases htp : lookupType vt o with u | _ | _ | _ <;> rw [htp] at hgo <;>
          simp only [] at hgo
        case tensor =>
          have hext := go_vtypes_ext k rest _ vt fresh
            (acc ++ [Node.mk .bailOut nins [o] nbks]) gouts r hlen' hgo
          have holt : o < fresh := by
            apply hcfg.2.2.2
            simp
          have hvt : lookupType r.vtypes o = JType.tensor u := by
            rw [hext.2 o holt, htp]
          have hss : stepState r.vtypes st2 (Node.mk .bailOut nins [o] nbks)
              = setState st2 o (tstate u) := by
            rw [show stepState r.vtypes st2 (Node.mk .bailOut nins [o] nbks)
              = (match lookupType r.vtypes o with
                 | .tensor u => setState st2 o (tstate u)
                 | _ => st2) from rfl, hvt]
          obtain ⟨tl, hnodes, hnm⟩ := ih rest _ vt fresh
            (acc ++ [Node.mk .bailOut nins [o] nbks]) gouts r
            (setState st2 o (tstate u)) hlen' hgo
            (ConfigOk_keep gins fresh acc _ rest hcfg) hcalm'
            (StateLe_setState_same st2 st1 hle o _)
          refine ⟨Node.mk .bailOut nins [o] nbks :: tl, by rw [hnodes]; simp, ?_⟩
          rw [NoMut]
          constructor
          · simp only [NoMutStep]
            exact ⟨u, hvt⟩
          · rw [hss]
            exact hnm
        · simp at hgo
        · simp at hgo
        · simp at hgo
      | guardKind =>
        simp only [] at hgo
        rcases nouts with _ | ⟨o, _ | ⟨o2, os2⟩⟩
        · simp at hgo
        case cons.cons => simp at hgo
        simp only [] at hgo
        rcases htp : lookupType vt o with u | _ | _ | _ <;> rw [htp] at hgo <;>
          simp only [] at hgo
        case tensor =>
          have hext := go_vtypes_ext k rest _ vt fresh
            (acc ++ [Node.mk .guardKind nins [o] nbks]) gouts r hlen' hgo
          have holt : o < fresh := by
            apply hcfg.2.2.2
            simp
          have hvt : lookupType r.vtypes o = JType.tensor u := by
            rw [hext.2 o holt, htp]
          have hss : stepState r.vtypes st2 (Node.mk .guardKind nins [o] nbks)
              = setState st2 o (tstate u) := by
            rw [show stepState r.vtypes st2 (Node.mk .guardKind nins [o] nbks)
              = (match lookupType r.vtypes o with
                 | .tensor u => setState st2 o (tstate u)
                 | _ => st2) from rfl, hvt]
          obtain ⟨tl, hnodes, hnm⟩ := ih rest _ vt fresh
            (acc ++ [Node.mk .guardKind nins [o] nbks]) gouts r
            (setState st2 o (tstate u)) hlen' hgo
            (ConfigOk_keep gins fresh acc _ rest hcfg) hcalm'
            (StateLe_setState_same st2 st1 hle o _)
          refine ⟨Node.mk .guardKind nins [o] nbks :: tl, by rw [hnodes]; simp, ?_⟩
          rw [NoMut]
          constructor
          · simp only [NoMutStep]
            exact ⟨u, hvt⟩
          · rw [hss]
            exact hnm
        · simp at hgo
        · simp at hgo
        · simp at hgo
      | ifKind =>
        simp only [] at hgo
        rcases nins with _ | ⟨cond, ci⟩
        · simp at hgo
        simp only [] at hgo
        have hcvis : cond ∈ gins ++ topOuts acc := hvis cond (by simp)
        rcases hdef : findDef (acc ++ Node.mk .ifKind (cond :: ci) nouts nbks :: rest) cond
          with _ | dn <;> rw [hdef] at hgo <;> simp only [] at hgo
        · -- condition has no defining node anywhere: conservative in both runs
          obtain ⟨tl, hnodes, hnm⟩ := ih rest (setAll st1 nouts State.Unknown) vt fresh
            (acc ++ [Node.mk .ifKind (cond :: ci) nouts nbks]) gouts r
            (setAll st2 nouts State.Unknown) hlen' hgo
            (ConfigOk_keep gins fresh acc _ rest hcfg) hcalm'
            (StateLe_setAll_same st2 st1 hle nouts State.Unknown)
          refine ⟨Node.mk .ifKind (cond :: ci) nouts nbks :: tl, by rw [hnodes]; simp, ?_⟩
          rw [NoMut]
          constructor
          · simp only [NoMutStep]
            left
            rw [findDef_eq_none_iff] at hdef ⊢
            have hcg : cond ∈ gins := by
              rcases List.mem_append.mp hcvis with hc | hc
              · exact hc
              · exfalso
                apply hdef
                rw [topOuts_append, List.mem_append]
                exact Or.inl hc
            have hford := go_ordering gins (rest.length + 1)
              (Node.mk .ifKind (cond :: ci) nouts nbks :: rest) st1 vt fresh acc gouts r
              (by simp) hgo0 hcfg
            have hndfin := hford.2.1
            rw [List.nodup_append] at hndfin
            intro hc
            have hc2 : cond ∈ seqDefs r.nodes := by
              apply topOuts_subset_seqDefs
              rw [hnodes]
              simpa using hc
            exact hndfin.2.2 hcg hc2
          · have hss : stepState r.vtypes st2 (Node.mk .ifKind (cond :: ci) nouts nbks)
                = setAll st2 nouts State.Unknown := rfl
            rw [hss]
            exact hnm
        · -- condition produced by dn
          have hdnacc : findDef acc cond = some dn := by
            cases hacc : findDef acc cond with
            | some dn' =>
              have h2 := findDef_append_some acc
                (Node.mk .ifKind (cond :: ci) nouts nbks :: rest) cond dn' hacc
              rw [hdef] at h2
              exact h2.symm
            | none =>
              exfalso
              rw [findDef_eq_none_iff] at hacc
              have hcg : cond ∈ gins := by
                rcases List.mem_append.mp hcvis with hc | hc
                · exact hc
                · exact absurd hc hacc
              have hmem := findDef_some_mem _ _ _ hdef
              have hc2 : cond ∈ seqDefs acc ++
                  seqDefs (Node.mk .ifKind (cond :: ci) nouts nbks :: rest) := by
                rw [← seqDefs_append]
                apply topOuts_subset_seqDefs
                rw [topOuts]
                rw [List.mem_flatMap]
                exact ⟨dn, hmem.1, hmem.2⟩
              have h3 := hcfg.2.2.1
              rw [List.nodup_append] at h3
              rcases List.mem_append.mp hc2 with hc | hc
              · exact (List.disjoint_left.mp (List.nodup_append.mp h3.1).2.2) hcg hc
              · exact h3.2.2 (List.mem_append.mpr (Or.inl hcg)) hc
          have hdn2 : ∀ tl2, findDef
              (acc ++ Node.mk .ifKind (cond :: ci) nouts nbks :: tl2) cond = some dn :=
            fun tl2 => findDef_append_some acc _ cond dn hdnacc
          obtain ⟨dk, di, dO, dB⟩ := dn
          split_ifs at hgo with hk hz hnzf
          · -- all guards Zero in run 1: collapse to AutogradZero
            simp only [Node.kind] at hk
            subst hk
            simp only [Node.ins] at hz
            have hiz := ConfigOk_ifZero gins fresh acc cond ci nouts nbks rest hcfg
            rw [hiz.1] at hgo
            set zN := Node.mk .autogradZero [] [fresh] [] with hzN
            have hnoutsrest : ∀ o ∈ nouts, o ∉ seqDefs rest := by
              intro o ho
              apply hfacts.2.2.1
              simp only [nodeDefs_mk, List.mem_append]
              exact Or.inl ho
            obtain ⟨tl, hnodes, hnm⟩ := ih (multiSubstNodes nouts fresh rest)
              (setState st1 fresh State.Zero) ((fresh, JType.tensor none) :: vt)
              (fresh + 1) (acc ++ [zN]) (multiSubstVals nouts fresh gouts) r
              (setState st2 fresh State.Zero)
              (by simpa [multiSubstNodes_length] using hlen') hgo hiz.2
              (Calm_multiSubst nouts fresh rest hcalm' hnoutsrest)
              (StateLe_setState_same st2 st1 hle fresh State.Zero)
            refine ⟨zN :: tl, by rw [hnodes]; simp, ?_⟩
            rw [NoMut]
            constructor
            · rw [hzN]; exact trivial
            · have hss : stepState r.vtypes st2 zN = setState st2 fresh State.Zero := rfl
              rw [hss]
              exact hnm
          · -- all guards Nonzero in run 1: inline the body
            simp only [Node.kind] at hk
            subst hk
            simp only [Node.ins] at hz hnzf
            rcases nbks with _ | ⟨⟨body, bouts⟩, bks⟩
            · simp at hgo
            simp only [] at hgo
            split_ifs at hgo with hblen
            have hih := ConfigOk_ifHoist gins fresh acc cond ci nouts bouts body
              bks rest st1 gouts hblen hcfg
            rw [hih.1] at hgo
            have hcb := hcalm (Node.mk .ifKind (cond :: ci) nouts
              ((body, bouts) :: bks)) (by simp) (body, bouts) (by simp [Node.blocks])
            have hbod : ∀ m ∈ body, inert m.kind := hcb.1
            have hbouts : ∀ w ∈ bouts, w ∈ topOuts body := hcb.2
            have hnoutsrest : ∀ o ∈ nouts, o ∉ seqDefs rest := by
              intro o ho
              apply hfacts.2.2.1
              simp only [nodeDefs_mk, List.mem_append]
              exact Or.inl ho
            have hdisjob : ∀ o ∈ nouts, o ∉ bouts := by
              intro o ho hc
              have hdn := hfacts.2.2.2
              simp only [nodeDefs_mk] at hdn
              rw [List.nodup_append] at hdn
              have hb2 : o ∈ blocksDefs ((body, bouts) :: bks) := by
                rw [blocksDefs_cons, List.mem_append]
                left
                exact topOuts_subset_seqDefs body o (hbouts o hc)
              exact hdn.2.2 ho hb2
            set st2' := body.foldl (stepState r.vtypes) st2 with hst2'
            have hle' : StateLe st2'
                (inlineOuts nouts bouts st1 (acc ++ body) rest gouts).1 := by
              intro v
              rw [hst2', foldl_stepState_inert r.vtypes body st2 v hbod,
                inlineOuts_state_lookup nouts bouts st1 (acc ++ body) rest gouts v hdisjob]
              by_cases hv2 : v ∈ topOuts body
              · rw [if_pos hv2]
                constructor <;> intro hc <;> exact absurd hc (by simp)
              · rw [if_neg hv2]
                have hvb : v ∉ bouts.take nouts.length := by
                  intro hc
                  exact hv2 (hbouts v (List.mem_of_mem_take hc))
                rw [if_neg hvb]
                exact hle v
            obtain ⟨tl, hnodes, hnm⟩ := ih
              ((inlineOuts nouts bouts st1 (acc ++ body) rest gouts).2.2.1)
              ((inlineOuts nouts bouts st1 (acc ++ body) rest gouts).1) vt fresh
              (acc ++ body)
              ((inlineOuts nouts bouts st1 (acc ++ body) rest gouts).2.2.2) r st2'
              (by rw [inlineOuts_rest_length]; exact hlen') hgo hih.2
              (Calm_inlineOuts nouts bouts st1 (acc ++ body) rest gouts hcalm' hnoutsrest)
              hle'
            refine ⟨body ++ tl, by rw [hnodes]; simp, ?_⟩
            exact NoMut_append_inert r.vtypes body st2 acc tl hbod
              (by rw [← hst2']; exact hnm)
          · -- mixed guards: kept, conservative in both runs
            simp only [Node.kind] at hk
            subst hk
            simp only [Node.ins] at hz hnzf
            obtain ⟨tl, hnodes, hnm⟩ := ih rest (setAll st1 nouts State.Unknown) vt fresh
              (acc ++ [Node.mk .ifKind (cond :: ci) nouts nbks]) gouts r
              (setAll st2 nouts State.Unknown) hlen' hgo
              (ConfigOk_keep gins fresh acc _ rest hcfg) hcalm'
              (StateLe_setAll_same st2 st1 hle nouts State.Unknown)
            refine ⟨Node.mk .ifKind (cond :: ci) nouts nbks :: tl,
              by rw [hnodes]; simp, ?_⟩
            rw [NoMut]
            constructor
            · simp only [NoMutStep]
              right
              refine ⟨Node.mk .anyNonZero di dO dB, hdn2 tl, Or.inr ⟨?_, ?_⟩⟩
              · simp only [Node.ins]
                intro hc
                exact hz (fun v hv => (hle v).1 (hc v hv))
              · simp only [Node.ins]
                intro hc
                exact hnzf (fun v hv => (hle v).2 (hc v hv))
            · have hss : stepState r.vtypes st2 (Node.mk .ifKind (cond :: ci) nouts nbks)
                  = setAll st2 nouts State.Unknown := rfl
              rw [hss]
              exact hnm
          · -- producer is not the any-nonzero test: conservative in both runs
            obtain ⟨tl, hnodes, hnm⟩ := ih rest (setAll st1 nouts State.Unknown) vt fresh
              (acc ++ [Node.mk .ifKind (cond :: ci) nouts nbks]) gouts r
              (setAll st2 nouts State.Unknown) hlen' hgo
              (ConfigOk_keep gins fresh acc _ rest hcfg) hcalm'
              (StateLe_setAll_same st2 st1 hle nouts State.Unknown)
            refine ⟨Node.mk .ifKind (cond :: ci) nouts nbks :: tl,
              by rw [hnodes]; simp, ?_⟩
            rw [NoMut]
            constructor
            · simp only [NoMutStep]
              right
              exact ⟨Node.mk dk di dO dB, hdn2 tl, Or.inl hk⟩
            · have hss : stepState r.vtypes st2 (Node.mk .ifKind (cond :: ci) nouts nbks)
                  = setAll st2 nouts State.Unknown := rfl
              rw [hss]
              exact hnm
      | anyNonZero =>
        simp only [] at hgo
        obtain ⟨tl, hnodes, hnm⟩ := ih rest (setAll st1 nouts State.Unknown) vt fresh
          (acc ++ [Node.mk .anyNonZero nins nouts nbks]) gouts r
          (setAll st2 nouts State.Unknown) hlen' hgo
          (ConfigOk_keep gins fresh acc _ rest hcfg) hcalm'
          (StateLe_setAll_same st2 st1 hle nouts State.Unknown)
        refine ⟨Node.mk .anyNonZero nins nouts nbks :: tl, by rw [hnodes]; simp, ?_⟩
        rw [NoMut]
        exact ⟨trivial, hnm⟩
      | atenAdd =>
        simp only [] at hgo
        obtain ⟨tl, hnodes, hnm⟩ := ih rest (setAll st1 nouts State.Unknown) vt fresh
          (acc ++ [Node.mk .atenAdd nins nouts nbks]) gouts r
          (setAll st2 nouts State.Unknown) hlen' hgo
          (ConfigOk_keep gins fresh acc _ rest hcfg) hcalm'
          (StateLe_setAll_same st2 st1 hle nouts State.Unknown)
        refine ⟨Node.mk .atenAdd nins nouts nbks :: tl, by rw [hnodes]; simp, ?_⟩
        rw [NoMut]
        exact ⟨trivial, hnm⟩
      | constant cv =>
        simp only [] at hgo
        obtain ⟨tl, hnodes, hnm⟩ := ih rest (setAll st1 nouts State.Unknown) vt fresh
          (acc ++ [Node.mk (.constant cv) nins nouts nbks]) gouts r
          (setAll st2 nouts State.Unknown) hlen' hgo
          (ConfigOk_keep gins fresh acc _ rest hcfg) hcalm'
          (StateLe_setAll_same st2 st1 hle nouts State.Unknown)
        refine ⟨Node.mk (.constant cv) nins nouts nbks :: tl, by rw [hnodes]; simp, ?_⟩
        rw [NoMut]
        exact ⟨trivial, hnm⟩
      | other =>
        simp only [] at hgo
        obtain ⟨tl, hnodes, hnm⟩ := ih rest (setAll st1 nouts State.Unknown) vt fresh
          (acc ++ [Node.mk .other nins nouts nbks]) gouts r
          (setAll st2 nouts State.Unknown) hlen' hgo
          (ConfigOk_keep gins fresh acc _ rest hcfg) hcalm'
          (StateLe_setAll_same st2 st1 hle nouts State.Unknown)
        refine ⟨Node.mk .other nins nouts nbks :: tl, by rw [hnodes]; simp, ?_⟩
        rw [NoMut]
        exact ⟨trivial, hnm⟩

/-- Unfolding the driver: a successful traversal determines the output graph. -/
theorem specialize_eq (g : Graph) (r : PassResult)
    (h : go (initStates g) g.vtypes g.fresh [] g.outputs g.nodes = some r) :
    specializeAutogradZero g = some ⟨g.inputs, r.nodes, r.outputs, r.vtypes, r.fresh⟩ := by
  unfold specializeAutogradZero
  rw [h]

/-- C8: idempotence on canonical input graphs.  The canonical input shape
is rendered as: defs precede uses (`seqOk`), definition sites are unique
and below the fresh counter (the `Value*` identity and fresh-id contracts
of the host graph), and every conditional body is a lowered `GradOf` in
canonical form (`Calm`: only `default:`-dispatched operations inside, and
the block returns values its body defines).  Under these, running the pass
a second time on the graph produced by the first run performs no further
mutation: it returns that graph unchanged. -/
theorem C8_idempotence (g g' : Graph)
    (hpass : specializeAutogradZero g = some g')
    (h1 : seqOk g.inputs g.nodes)
    (h2 : (g.inputs ++ seqDefs g.nodes).Nodup)
    (h3 : ∀ v ∈ g.inputs ++ seqDefs g.nodes, v < g.fresh)
    (h4 : Calm g.nodes) :
    specializeAutogradZero g' = some g' := by
  unfold specializeAutogradZero at hpass
  cases hgo : go (initStates g) g.vtypes g.fresh [] g.outputs g.nodes with
  | none => rw [hgo] at hpass; cases hpass
  | some r =>
    rw [hgo] at hpass
    cases hpass
    have hcfg : ConfigOk g.inputs g.fresh [] g.nodes := by
      refine ⟨seqOk_nil _, ?_, ?_, ?_⟩
      · simpa [topOuts] using h1
      · simpa using h2
      · simpa using h3
    have hext := go_vtypes_ext g.nodes.length g.nodes (initStates g) g.vtypes g.fresh
      [] g.outputs r le_rfl hgo
    have hle0 : StateLe
        (initStates ⟨g.inputs, r.nodes, r.outputs, r.vtypes, r.fresh⟩)
        (initStates g) := by
      intro v
      have heq : lookupState
          (initStates ⟨g.inputs, r.nodes, r.outputs, r.vtypes, r.fresh⟩) v
          = lookupState (initStates g) v := by
        simp only [initStates]
        rw [lookup_initStates_aux, lookup_initStates_aux]
        by_cases hv : v ∈ g.inputs
        · rw [if_pos hv, if_pos hv, hext.2 v (h3 v (List.mem_append.mpr (Or.inl hv)))]
        · rw [if_neg hv, if_neg hv]
      rw [heq]
      exact ⟨fun h => h, fun h => h⟩
    obtain ⟨tl, hnodes, hnm⟩ := go_stable g.inputs g.nodes.length g.nodes
      (initStates g) g.vtypes g.fresh [] g.outputs r
      (initStates ⟨g.inputs, r.nodes, r.outputs, r.vtypes, r.fresh⟩)
      le_rfl hgo hcfg h4 hle0
    rw [List.nil_append] at hnodes
    subst hnodes
    obtain ⟨stf, hrun2⟩ := NoMut_sound r.vtypes r.nodes
      (initStates ⟨g.inputs, r.nodes, r.outputs, r.vtypes, r.fresh⟩)
      r.fresh [] r.outputs hnm
    have hfin := specialize_eq ⟨g.inputs, r.nodes, r.outputs, r.vtypes, r.fresh⟩
      ⟨[] ++ r.nodes, r.outputs, r.vtypes, r.fresh, stf⟩ hrun2
    simpa using hfin

/-- C8 witness: a concrete canonical graph (an any-nonzero test over a
`Zero` input guarding a conditional whose body is one `default:`-dispatched
node) is rewritten by the all-zero collapse, and a second run of the pass on
the resulting graph is the identity. -/
theorem C8_idempotence_witness :
    specializeAutogradZero
      { inputs := [0]
        nodes := [Node.mk .anyNonZero [0] [1] [],
                  Node.mk .ifKind [1] [2] [([Node.mk .other [0] [3] []], [3])]]
        outputs := [2]
        vtypes := [(0, JType.tensor (some true))]
        fresh := 10 } =
      some { inputs := [0]
             nodes := [Node.mk .anyNonZero [0] [1] [],
                       Node.mk .autogradZero [] [10] []]
             outputs := [10]
             vtypes := [(10, JType.tensor none), (0, JType.tensor (some true))]
             fresh := 11 } ∧
    specializeAutogradZero
      { inputs := [0]
        nodes := [Node.mk .anyNonZero [0] [1] [],
                  Node.mk .autogradZero [] [10] []]
        outputs := [10]
        vtypes := [(10, JType.tensor none), (0, JType.tensor (some true))]
        fresh := 11 } =
      some { inputs := [0]
             nodes := [Node.mk .anyNonZero [0] [1] [],
                       Node.mk .autogradZero [] [10] []]
             outputs := [10]
             vtypes := [(10, JType.tensor none), (0, JType.tensor (some true))]
             fresh := 11 } := by
  have hpass : specializeAutogradZero
      { inputs := [0]
        nodes := [Node.mk .anyNonZero [0] [1] [],
                  Node.mk .ifKind [1] [2] [([Node.mk .other [0] [3] []], [3])]]
        outputs := [2]
        vtypes := [(0, JType.tensor (some true))]
        fresh := 10 } =
      some { inputs := [0]
             nodes := [Node.mk .anyNonZero [0] [1] [],
                       Node.mk .autogradZero [] [10] []]
             outputs := [10]
             vtypes := [(10, JType.tensor none), (0, JType.tensor (some true))]
             fresh := 11 } := by
    simp [specializeAutogradZero, go, initStates, setState, setAll, lookupState,
      lookupType, initClassify, findDef, Node.kind, Node.ins, Node.outs, Node.blocks,
      multiSubstNodes, multiSubstVals, substNodes, substVals, substV]
  refine ⟨hpass, ?_⟩
  exact C8_idempotence _ _ hpass
    (by simp [Node.outs, Node.ins, Node.blocks])
    (by simp)
    (by simp)
    (by simp [Calm, Node.blocks, inert, topOuts, Node.outs, Node.kind])

end AutogradZero
